import Mathlib

set_option maxRecDepth 40000

namespace Merkle

/-! ### SHA-256 (FIPS 180-4)

The repository hashes with the `sha2` crate; the crate is external to the
repository, so the hash itself is given here as a direct executable
implementation of the SHA-256 standard, operating on lists of bytes
(naturals < 256) with 32-bit words represented as naturals reduced mod 2^32. -/

def w32 (n : Nat) : Nat := n % 4294967296

def rotr32 (n x : Nat) : Nat := w32 ((x >>> n) ||| (x <<< (32 - n)))

def shr32 (n x : Nat) : Nat := x >>> n

def bigSigma0 (x : Nat) : Nat := (rotr32 2 x) ^^^ (rotr32 13 x) ^^^ (rotr32 22 x)

def bigSigma1 (x : Nat) : Nat := (rotr32 6 x) ^^^ (rotr32 11 x) ^^^ (rotr32 25 x)

def smallSigma0 (x : Nat) : Nat := (rotr32 7 x) ^^^ (rotr32 18 x) ^^^ (shr32 3 x)

def smallSigma1 (x : Nat) : Nat := (rotr32 17 x) ^^^ (rotr32 19 x) ^^^ (shr32 10 x)

def chFn (x y z : Nat) : Nat := (x &&& y) ^^^ ((x ^^^ 4294967295) &&& z)

def majFn (x y z : Nat) : Nat := (x &&& y) ^^^ (x &&& z) ^^^ (y &&& z)

def sha256K : List Nat :=
  [1116352408, 1899447441, 3049323471, 3921009573, 961987163, 1508970993,
   2453635748, 2870763221, 3624381080, 310598401, 607225278, 1426881987,
   1925078388, 2162078206, 2614888103, 3248222580, 3835390401, 4022224774,
   264347078, 604807628, 770255983, 1249150122, 1555081692, 1996064986,
   2554220882, 2821834349, 2952996808, 3210313671, 3336571891, 3584528711,
   113926993, 338241895, 666307205, 773529912, 1294757372, 1396182291,
   1695183700, 1986661051, 2177026350, 2456956037, 2730485921, 2820302411,
   3259730800, 3345764771, 3516065817, 3600352804, 4094571909, 275423344,
   430227734, 506948616, 659060556, 883997877, 958139571, 1322822218,
   1537002063, 1747873779, 1955562222, 2024104815, 2227730452, 2361852424,
   2428436474, 2756734187, 3204031479, 3329325298]

structure Sha256State where
  sa : Nat
  sb : Nat
  sc : Nat
  sd : Nat
  se : Nat
  sf : Nat
  sg : Nat
  sh : Nat
  deriving DecidableEq

def sha256Start : Sha256State :=
  ⟨1779033703, 3144134277, 1013904242, 2773480762,
   1359893119, 2600822924, 528734635, 1541459225⟩

def sha256Round (s : Sha256State) (k : Nat) (w : Nat) : Sha256State :=
  let t1 := w32 (s.sh + bigSigma1 s.se + chFn s.se s.sf s.sg + k + w)
  let t2 := w32 (bigSigma0 s.sa + majFn s.sa s.sb s.sc)
  ⟨w32 (t1 + t2), s.sa, s.sb, s.sc, w32 (s.sd + t1), s.se, s.sf, s.sg⟩

def sha256Compress (s0 : Sha256State) (ws : List Nat) : Sha256State :=
  (sha256K.zip ws).foldl (fun s kw => sha256Round s kw.1 kw.2) s0

def sha256AddState (x y : Sha256State) : Sha256State :=
  ⟨w32 (x.sa + y.sa), w32 (x.sb + y.sb), w32 (x.sc + y.sc), w32 (x.sd + y.sd),
   w32 (x.se + y.se), w32 (x.sf + y.sf), w32 (x.sg + y.sg), w32 (x.sh + y.sh)⟩

def bytesToWords : List Nat → List Nat
  | b0 :: b1 :: b2 :: b3 :: rest =>
      (b0 * 16777216 + b1 * 65536 + b2 * 256 + b3) :: bytesToWords rest
  | _ => []

def sha256Extend : Nat → List Nat → List Nat
  | 0, ws => ws
  | f + 1, ws =>
      sha256Extend f (ws ++ [w32 (smallSigma1 (ws.get! (ws.length - 2)) + ws.get! (ws.length - 7) +
        smallSigma0 (ws.get! (ws.length - 15)) + ws.get! (ws.length - 16))])

def sha256Block (s : Sha256State) (block : List Nat) : Sha256State :=
  sha256AddState s (sha256Compress s (sha256Extend 48 (bytesToWords block)))

def sha256Blocks : Nat → Sha256State → List Nat → Sha256State
  | 0, s, _ => s
  | _ + 1, s, [] => s
  | f + 1, s, bytes => sha256Blocks f (sha256Block s (bytes.take 64)) (bytes.drop 64)

def beBytes8 (n : Nat) : List Nat :=
  [n / 72057594037927936 % 256, n / 281474976710656 % 256, n / 1099511627776 % 256,
   n / 4294967296 % 256, n / 16777216 % 256, n / 65536 % 256, n / 256 % 256, n % 256]

def sha256Pad (msg : List Nat) : List Nat :=
  msg ++ [128] ++ List.replicate ((119 - msg.length % 64) % 64) 0 ++ beBytes8 (8 * msg.length)

def wordBytes (w : Nat) : List Nat := [w / 16777216 % 256, w / 65536 % 256, w / 256 % 256, w % 256]

def stateBytes (s : Sha256State) : List Nat :=
  wordBytes s.sa ++ wordBytes s.sb ++ wordBytes s.sc ++ wordBytes s.sd ++
  wordBytes s.se ++ wordBytes s.sf ++ wordBytes s.sg ++ wordBytes s.sh

def sha256 (msg : List Nat) : List Nat :=
  let p := sha256Pad msg
  stateBytes (sha256Blocks p.length sha256Start p)

/-! ### Hex and base64 encodings

`hex::encode` produces lowercase hex; `base64::encode` produces the standard
alphabet with trailing padding characters. Both are modelled on byte lists. -/

def hexChar (n : Nat) : Char := if n < 10 then Char.ofNat (48 + n) else Char.ofNat (87 + n)

def hexEncode (bytes : List Nat) : String :=
  String.mk (bytes.foldr (fun b acc => hexChar (b / 16) :: hexChar (b % 16) :: acc) [])

def hexVal (c : Char) : Nat := if c.toNat ≤ 57 then c.toNat - 48 else c.toNat - 87

def hexDecodeGo : List Char → List Nat
  | c1 :: c2 :: rest => (hexVal c1 * 16 + hexVal c2) :: hexDecodeGo rest
  | _ => []

def hexDecode (s : String) : List Nat := hexDecodeGo s.data

def base64Char (n : Nat) : Char :=
  if n < 26 then Char.ofNat (65 + n)
  else if n < 52 then Char.ofNat (97 + (n - 26))
  else if n < 62 then Char.ofNat (48 + (n - 52))
  else if n = 62 then Char.ofNat 43
  else Char.ofNat 47

def base64Go : List Nat → List Char
  | [] => []
  | [a] => [base64Char (a / 4), base64Char (a % 4 * 16), Char.ofNat 61, Char.ofNat 61]
  | [a, b] =>
      [base64Char (a / 4), base64Char (a % 4 * 16 + b / 16), base64Char (b % 16 * 4), Char.ofNat 61]
  | a :: b :: c :: rest =>
      base64Char (a / 4) :: base64Char (a % 4 * 16 + b / 16) ::
      base64Char (b % 16 * 4 + c / 64) :: base64Char (c % 64) :: base64Go rest

def base64Encode (bytes : List Nat) : String := String.mk (base64Go bytes)

/-! ### file_utils.rs

Byte-for-byte translation of `pad_vec`, `pad_leaf_layer`, `get_next_power_of_two`
and `split_file_to_chunks`.  A file is represented by its byte list (the Rust
code reads the whole file into a buffer first).  `usize` arithmetic is modelled
on `Nat` with explicit wrapping mod 2^64 where the Rust code can wrap: the
`num -= 1` of `get_next_power_of_two` is the one operation that can underflow
(Rust release builds wrap; debug builds panic there). -/

def CHUNK_SIZE : Nat := 1024

def USIZE_MOD : Nat := 18446744073709551616

/-- `pad_vec`: push `0u8` until the block has length `CHUNK_SIZE`
(the while-loop appends `CHUNK_SIZE - len` zero bytes). -/
def pad_vec (data : List Nat) : List Nat := data ++ List.replicate (CHUNK_SIZE - data.length) 0

/-- `get_next_power_of_two`: the decrement / cascading or-shift / increment
bit-trick on wrapping 64-bit `usize` arithmetic. -/
def get_next_power_of_two (amount : Nat) : Nat :=
  let num := (amount + (USIZE_MOD - 1)) % USIZE_MOD
  let num := num ||| (num >>> 1)
  let num := num ||| (num >>> 2)
  let num := num ||| (num >>> 4)
  let num := num ||| (num >>> 8)
  let num := num ||| (num >>> 16)
  (num + 1) % USIZE_MOD

/-- `pad_leaf_layer`: push 32-byte all-zero payloads until the leaf count
reaches `get_next_power_of_two` of the original count (computed once). -/
def pad_leaf_layer (data : List (List Nat)) : List (List Nat) :=
  data ++ List.replicate (get_next_power_of_two data.length - data.length) (List.replicate 32 0)

def chunksGo : Nat → List Nat → List (List Nat)
  | _, [] => []
  | 0, _ => []
  | f + 1, bytes => bytes.take CHUNK_SIZE :: chunksGo f (bytes.drop CHUNK_SIZE)

/-- `split_file_to_chunks`: split the file's bytes into `CHUNK_SIZE`-wide
blocks and `pad_vec` each of them. -/
def split_file_to_chunks (bytes : List Nat) : List (List Nat) :=
  (chunksGo bytes.length bytes).map pad_vec

/-! ### merkle_tree.rs -/

/-- `hash_leaf`: a piece equal to the 32-byte all-zero sentinel is kept as is,
anything else is hashed with SHA-256. -/
def hash_leaf (data : List Nat) : List Nat :=
  let zero_value : List Nat := List.replicate 32 0
  if data ≠ zero_value then sha256 data else data

/-- One step of `populate_tree`'s work-queue loop, iterated on fuel (the Rust
loop runs `while let Some(index) = queue.pop_front()`; the fuel passed by
`populate_tree` strictly exceeds the number of iterations the loop performs). -/
def bfsRun : Nat → List (List Nat) → List Nat → List Nat → List (List Nat)
  | 0, data, _, _ => data
  | f + 1, data, visited, queue =>
    match queue with
    | [] => data
    | x :: rest =>
      if x ∈ visited then bfsRun f data visited rest
      else
        let data' := if 2 * x < data.length ∧ 2 * x + 1 < data.length then
            data.set x (sha256 (data.get! (2 * x) ++ data.get! (2 * x + 1))) else data
        let rest' := if x / 2 > 0 then rest ++ [x / 2] else rest
        bfsRun f data' (x :: visited) rest'

/-- `populate_tree`: breadth-first bottom-up hashing, starting from the queue
`[pieces_length, …, 2·pieces_length − 1]` with an empty visited set. -/
def populate_tree (data : List (List Nat)) (pieces_length : Nat) : List (List Nat) :=
  bfsRun (3 * data.length + 3) data [] (List.range' pieces_length pieces_length)

/-- `get_uncle`. -/
def get_uncle (child_node : Nat) : Option Nat :=
  let parent := child_node / 2
  let grandparent := parent / 2
  if parent = 0 ∨ grandparent = 0 then none
  else if parent % 2 = 0 then some (grandparent * 2 + 1) else some (grandparent * 2)

/-- `get_sibling`. -/
def get_sibling (node : Nat) : Nat := if node % 2 = 0 then node + 1 else node - 1

structure MerkleTree where
  nodes : List (List Nat)
  total_non_empty_pieces : Nat
  total_nodes : Nat
  piece_data : List (Nat × String)

/-- The `for_each` writing `result_data[i + leaf_layer_length] = hash_leaf(piece)`
over `pieces.into_iter().enumerate()`. -/
def place_leaves (base : List (List Nat)) (pieces : List (List Nat)) (L : Nat) : List (List Nat) :=
  pieces.enum.foldl (fun acc ip => acc.set (ip.1 + L) (hash_leaf ip.2)) base

/-- `MerkleTree::new`, from the file's bytes (the Rust function first reads the
file into a byte buffer).  The `HashMap<usize, String>` piece registry is
modelled as an association list with the same keys `0 .. total_non_empty_pieces`. -/
def MerkleTree.new (bytes : List Nat) : MerkleTree :=
  let pieces0 := split_file_to_chunks bytes
  let total_non_empty_pieces := pieces0.length
  let pieces := pad_leaf_layer pieces0
  let total_nodes := 2 * pieces.length - 1
  let base := List.replicate (total_nodes + 1) ([] : List Nat)
  let base64_map := (List.range total_non_empty_pieces).map (fun i => (i, base64Encode (pieces.get! i)))
  let leaf_layer_length := pieces.length
  let withLeaves := place_leaves base pieces leaf_layer_length
  let nodes := populate_tree withLeaves pieces.length
  ⟨nodes, total_non_empty_pieces, total_nodes, base64_map⟩

/-- The `while let Some(uncle) = get_uncle(node)` loop of `uncle_traversal`,
iterated on fuel (the fuel passed strictly exceeds the chain length). -/
def uncleChainGo : Nat → List (List Nat) → Nat → List String → List String
  | 0, _, _, acc => acc
  | f + 1, nodes, node, acc =>
    match get_uncle node with
    | none => acc
    | some u => uncleChainGo f nodes u (acc ++ [hexEncode (nodes.get! u)])

/-- `MerkleTree::uncle_traversal`. -/
def MerkleTree.uncle_traversal (t : MerkleTree) (piece_number : Nat) : Option (List String) :=
  if t.total_non_empty_pieces - 1 < piece_number then none
  else some (uncleChainGo t.nodes.length t.nodes (t.nodes.length / 2 + piece_number) [])

/-- `MerkleTree::proof`: push the hex digest of the leaf's sibling — a
panicking vector index in the source, so an out-of-bounds sibling is the
outer `none` (a crash), while a value the function returns is wrapped in the
outer `some` — then append the uncle chain when `uncle_traversal` returns
one. -/
def MerkleTree.proof (t : MerkleTree) (piece_number : Nat) : Option (Option (List String)) :=
  if t.total_non_empty_pieces < piece_number then some none
  else
    let node_index := t.nodes.length / 2 + piece_number
    if get_sibling node_index < t.nodes.length then
      let base := [hexEncode (t.nodes.get! (get_sibling node_index))]
      match t.uncle_traversal piece_number with
      | some uncles => some (some (base ++ uncles))
      | none => some (some base)
    else none

/-! ### The verifier-side replay of a proof

This is the spec's description of how a holder of a piece consumes a proof
(§4.5 of the specification): starting from the leaf digest and the leaf's node
index, each proof element is hex-decoded and hashed with the running digest,
placed left or right according to the parity of the climbing node index. -/

def foldProof : List String → Nat → List Nat → List Nat
  | [], _, current => current
  | p :: rest, node, current =>
      let sib := hexDecode p
      foldProof rest (node / 2) (if node % 2 = 0 then sha256 (current ++ sib) else sha256 (sib ++ current))

/-! ### List access helper lemmas -/

theorem get_bang_nil {α : Type} [Inhabited α] (n : Nat) : ([] : List α).get! n = default := by
  cases n <;> rfl

theorem get_bang_cons_zero {α : Type} [Inhabited α] (a : α) (l : List α) : (a :: l).get! 0 = a := rfl

theorem get_bang_cons_succ {α : Type} [Inhabited α] (a : α) (l : List α) (n : Nat) :
    (a :: l).get! (n + 1) = l.get! n := rfl

theorem get_bang_of_length_le {α : Type} [Inhabited α] :
    ∀ (l : List α) (n : Nat), l.length ≤ n → l.get! n = default
  | [], n, _ => get_bang_nil n
  | _ :: l, n + 1, h => by
      rw [get_bang_cons_succ]
      exact get_bang_of_length_le l n (by simpa using h)

theorem get_bang_append_left {α : Type} [Inhabited α] :
    ∀ (l1 l2 : List α) (n : Nat), n < l1.length → (l1 ++ l2).get! n = l1.get! n
  | [], _, n, h => by simp at h
  | a :: l1, l2, 0, _ => rfl
  | a :: l1, l2, n + 1, h => by
      rw [List.cons_append, get_bang_cons_succ, get_bang_cons_succ]
      exact get_bang_append_left l1 l2 n (by simpa using h)

theorem get_bang_append_right {α : Type} [Inhabited α] :
    ∀ (l1 l2 : List α) (n : Nat), (l1 ++ l2).get! (l1.length + n) = l2.get! n
  | [], _, n => by simp
  | a :: l1, l2, n => by
      rw [List.cons_append, List.length_cons]
      have : a :: l1 ++ l2 = a :: (l1 ++ l2) := rfl
      rw [Nat.succ_add, get_bang_cons_succ]
      exact get_bang_append_right l1 l2 n

theorem get_bang_replicate {α : Type} [Inhabited α] (a : α) :
    ∀ (k n : Nat), n < k → (List.replicate k a).get! n = a
  | k + 1, 0, _ => rfl
  | k + 1, n + 1, h => by
      rw [List.replicate_succ, get_bang_cons_succ]
      exact get_bang_replicate a k n (by omega)

theorem get_bang_set_self {α : Type} [Inhabited α] :
    ∀ (l : List α) (n : Nat) (v : α), n < l.length → (l.set n v).get! n = v
  | [], n, v, h => by simp at h
  | a :: l, 0, v, _ => rfl
  | a :: l, n + 1, v, h => by
      rw [List.set_cons_succ, get_bang_cons_succ]
      exact get_bang_set_self l n v (by simpa using h)

theorem get_bang_set_ne {α : Type} [Inhabited α] :
    ∀ (l : List α) (m n : Nat) (v : α), m ≠ n → (l.set m v).get! n = l.get! n
  | [], _, _, _, _ => rfl
  | a :: l, 0, 0, v, h => absurd rfl h
  | a :: l, 0, n + 1, v, _ => rfl
  | a :: l, m + 1, 0, v, _ => rfl
  | a :: l, m + 1, n + 1, v, h => by
      rw [List.set_cons_succ, get_bang_cons_succ, get_bang_cons_succ]
      exact get_bang_set_ne l m n v (by omega)

theorem get_bang_map {α β : Type} [Inhabited α] [Inhabited β] (f : α → β) :
    ∀ (l : List α) (n : Nat), n < l.length → (l.map f).get! n = f (l.get! n)
  | [], n, h => by simp at h
  | a :: l, 0, _ => rfl
  | a :: l, n + 1, h => by
      rw [List.map_cons, get_bang_cons_succ, get_bang_cons_succ]
      exact get_bang_map f l n (by simpa using h)

theorem lookup_range_map {β : Type} (f : Nat → β) :
    ∀ (n i : Nat), List.lookup i ((List.range n).map fun j => (j, f j)) =
      if i < n then some (f i) else none := by
  intro n
  induction n with
  | zero => intro i; simp
  | succ n ih =>
    intro i
    rw [List.range_succ, List.map_append, List.lookup_append, ih i]
    rcases Nat.lt_trichotomy i n with h | h | h
    · rw [if_pos h, if_pos (by omega)]
      rfl
    · subst h
      rw [if_neg (by omega), if_pos (by omega)]
      simp [List.lookup]
    · rw [if_neg (by omega), if_neg (by omega)]
      have hne : (i == n) = false := beq_eq_false_iff_ne.mpr (by omega)
      simp [List.lookup, hne]

/-! ### Chunking lemmas -/

theorem chunksGo_nil (f : Nat) : chunksGo f [] = [] := by cases f <;> rfl

theorem chunksGo_cons (f : Nat) (b : Nat) (bs : List Nat) :
    chunksGo (f + 1) (b :: bs) =
      (b :: bs).take CHUNK_SIZE :: chunksGo f ((b :: bs).drop CHUNK_SIZE) := rfl

theorem drop_chunk_le {f : Nat} (b : Nat) (bs : List Nat) (h : (b :: bs).length ≤ f + 1) :
    ((b :: bs).drop CHUNK_SIZE).length ≤ f := by
  rw [List.length_drop, List.length_cons] at *
  simp only [CHUNK_SIZE]
  omega

theorem chunksGo_length : ∀ (fuel : Nat) (bytes : List Nat), bytes.length ≤ fuel →
    (chunksGo fuel bytes).length = (bytes.length + 1023) / 1024
  | f, [], _ => by rw [chunksGo_nil]; rfl
  | 0, b :: bs, h => by simp at h
  | f + 1, b :: bs, h => by
      rw [chunksGo_cons, List.length_cons,
        chunksGo_length f ((b :: bs).drop CHUNK_SIZE) (drop_chunk_le b bs h),
        List.length_drop, List.length_cons]
      simp only [CHUNK_SIZE]
      omega

theorem chunksGo_get : ∀ (fuel : Nat) (bytes : List Nat), bytes.length ≤ fuel →
    ∀ i, i < (chunksGo fuel bytes).length →
      (chunksGo fuel bytes).get! i = (bytes.drop (1024 * i)).take 1024
  | f, [], _, i, hi => by rw [chunksGo_nil] at hi; simp at hi
  | 0, b :: bs, h, _, _ => by simp at h
  | f + 1, b :: bs, h, 0, _ => by
      rw [chunksGo_cons, get_bang_cons_zero]
      simp only [CHUNK_SIZE, Nat.mul_zero, List.drop_zero]
  | f + 1, b :: bs, h, i + 1, hi => by
      rw [chunksGo_cons, List.length_cons] at hi
      rw [chunksGo_cons, get_bang_cons_succ,
        chunksGo_get f ((b :: bs).drop CHUNK_SIZE) (drop_chunk_le b bs h) i
          (Nat.lt_of_succ_lt_succ hi),
        List.drop_drop]
      simp only [CHUNK_SIZE]
      congr 2
      omega

theorem chunksGo_mem_length : ∀ (fuel : Nat) (bytes : List Nat),
    ∀ c ∈ chunksGo fuel bytes, c.length ≤ 1024
  | f, [], c, hc => by rw [chunksGo_nil] at hc; simp at hc
  | 0, b :: bs, c, hc => by cases hc
  | f + 1, b :: bs, c, hc => by
      rw [chunksGo_cons] at hc
      rcases List.mem_cons.mp hc with hc | hc
      · subst hc
        rw [List.length_take]
        simp only [CHUNK_SIZE]
        exact min_le_left _ _
      · exact chunksGo_mem_length f ((b :: bs).drop CHUNK_SIZE) c hc

theorem pad_vec_length (l : List Nat) (h : l.length ≤ 1024) : (pad_vec l).length = 1024 := by
  simp [pad_vec, CHUNK_SIZE]
  omega

theorem split_length (bytes : List Nat) :
    (split_file_to_chunks bytes).length = (bytes.length + 1023) / 1024 := by
  unfold split_file_to_chunks
  rw [List.length_map]
  exact chunksGo_length bytes.length bytes le_rfl

theorem split_get (bytes : List Nat) (i : Nat) (hi : i < (split_file_to_chunks bytes).length) :
    (split_file_to_chunks bytes).get! i = pad_vec ((bytes.drop (1024 * i)).take 1024) := by
  unfold split_file_to_chunks at hi ⊢
  rw [List.length_map] at hi
  rw [get_bang_map pad_vec _ i hi, chunksGo_get bytes.length bytes le_rfl i hi]

theorem split_mem_len (bytes : List Nat) (c : List Nat) (hc : c ∈ split_file_to_chunks bytes) :
    c.length = 1024 := by
  unfold split_file_to_chunks at hc
  rcases List.mem_map.mp hc with ⟨r, hr, rfl⟩
  exact pad_vec_length r (chunksGo_mem_length bytes.length bytes r hr)

theorem split_get_len (bytes : List Nat) (i : Nat) (hi : i < (split_file_to_chunks bytes).length) :
    ((split_file_to_chunks bytes).get! i).length = 1024 := by
  rw [split_get bytes i hi]
  refine pad_vec_length _ ?_
  rw [List.length_take]
  exact min_le_left _ _

theorem split_count_le (bytes : List Nat) : (split_file_to_chunks bytes).length ≤ bytes.length := by
  rw [split_length]
  omega

theorem split_pos_of_ne_nil (bytes : List Nat) (h : bytes ≠ []) :
    0 < (split_file_to_chunks bytes).length := by
  rw [split_length]
  have : 0 < bytes.length := List.length_pos.mpr h
  omega

/-- C8: `split_file_to_chunks` splits the byte buffer into consecutive
1024-byte blocks, zero-padding the final short block to exactly 1024 bytes,
and produces `ceil(len / 1024)` pieces. -/
theorem chunking_spec (bytes : List Nat) :
    (split_file_to_chunks bytes).length = (bytes.length + 1023) / 1024 ∧
    ∀ i, i < (split_file_to_chunks bytes).length →
      (split_file_to_chunks bytes).get! i =
        (bytes.drop (1024 * i)).take 1024 ++ List.replicate (1024 - (bytes.length - 1024 * i)) 0 ∧
      ((split_file_to_chunks bytes).get! i).length = 1024 := by
  refine ⟨split_length bytes, fun i hi => ⟨?_, split_get_len bytes i hi⟩⟩
  rw [split_get bytes i hi]
  unfold pad_vec
  congr 2
  rw [List.length_take, List.length_drop]
  simp only [CHUNK_SIZE]
  rcases Nat.le_total 1024 (bytes.length - 1024 * i) with hmin | hmin
  · rw [min_eq_left hmin]
    omega
  · rw [min_eq_right hmin]

theorem chunking_spec_witness :
    (split_file_to_chunks [5]).length = (([5] : List Nat).length + 1023) / 1024 ∧
    (0 < (split_file_to_chunks [5]).length ∧
      (split_file_to_chunks [5]).get! 0 =
        (([5] : List Nat).drop (1024 * 0)).take 1024 ++
          List.replicate (1024 - (([5] : List Nat).length - 1024 * 0)) 0 ∧
      ((split_file_to_chunks [5]).get! 0).length = 1024) :=
  ⟨(chunking_spec [5]).1, by decide,
    ((chunking_spec [5]).2 0 (by decide)).1, ((chunking_spec [5]).2 0 (by decide)).2⟩

/-- C4 (failing case): the bit-trick of `get_next_power_of_two` is not
special-cased at 0; the initial `num -= 1` wraps around and the final
increment wraps back, so the function returns 0 (not 1) for a piece count of
0 under release-mode wrapping `usize` arithmetic (a debug build panics on the
underflow instead). -/
theorem next_power_of_two_at_zero : get_next_power_of_two 0 = 0 := by decide

/-- C9: the proof chain terminates (`get_uncle` is `none`) exactly when the
parent `x / 2` or the grandparent `x / 2 / 2` resolves to the root slot 0;
otherwise the uncle is `grandparent * 2 + 1` for an even parent and
`grandparent * 2` for an odd parent, which is precisely the sibling of the
parent. -/
theorem uncle_chain_boundary (x : Nat) :
    (get_uncle x = none ↔ x / 2 = 0 ∨ x / 2 / 2 = 0) ∧
    (x / 2 ≠ 0 → x / 2 / 2 ≠ 0 →
      get_uncle x = some (if x / 2 % 2 = 0 then x / 2 / 2 * 2 + 1 else x / 2 / 2 * 2) ∧
      get_uncle x = some (get_sibling (x / 2))) := by
  have huncle : get_uncle x =
      if x / 2 = 0 ∨ x / 2 / 2 = 0 then none
      else if x / 2 % 2 = 0 then some (x / 2 / 2 * 2 + 1) else some (x / 2 / 2 * 2) := rfl
  constructor
  · rw [huncle]
    by_cases h : x / 2 = 0 ∨ x / 2 / 2 = 0
    · simp [h]
    · rw [if_neg h]
      constructor
      · intro hc
        split at hc <;> simp at hc
      · intro hc
        exact absurd hc h
  · intro h1 h2
    rw [huncle, if_neg (by tauto)]
    constructor
    · by_cases hp : x / 2 % 2 = 0 <;> simp [hp]
    · unfold get_sibling
      by_cases hp : x / 2 % 2 = 0
      · rw [if_pos hp, if_pos hp]
        have h3 : x / 2 / 2 * 2 = x / 2 := by omega
        rw [h3]
      · rw [if_neg hp, if_neg hp]
        have h3 : x / 2 / 2 * 2 = x / 2 - 1 := by omega
        rw [h3]

theorem uncle_chain_boundary_witness :
    (get_uncle 12 = none ↔ 12 / 2 = 0 ∨ 12 / 2 / 2 = 0) ∧
    (get_uncle 12 = some (if 12 / 2 % 2 = 0 then 12 / 2 / 2 * 2 + 1 else 12 / 2 / 2 * 2) ∧
      get_uncle 12 = some (get_sibling (12 / 2))) :=
  ⟨(uncle_chain_boundary 12).1, (uncle_chain_boundary 12).2 (by decide) (by decide)⟩

/-! ### SHA-256 output shape -/

theorem wordBytes_lt (w : Nat) : ∀ b ∈ wordBytes w, b < 256 := by
  intro b hb
  simp [wordBytes] at hb
  rcases hb with h | h | h | h <;> omega

theorem stateBytes_lt (s : Sha256State) : ∀ b ∈ stateBytes s, b < 256 := by
  intro b hb
  simp only [stateBytes, List.mem_append, or_assoc] at hb
  rcases hb with hb | hb | hb | hb | hb | hb | hb | hb <;> exact wordBytes_lt _ b hb

theorem stateBytes_length (s : Sha256State) : (stateBytes s).length = 32 := by
  simp [stateBytes, wordBytes]

theorem sha256_length (msg : List Nat) : (sha256 msg).length = 32 := by
  unfold sha256
  exact stateBytes_length _

theorem sha256_bytes_lt (msg : List Nat) : ∀ b ∈ sha256 msg, b < 256 := by
  unfold sha256
  exact stateBytes_lt _

theorem hash_leaf_of_ne (data : List Nat) (h : data ≠ List.replicate 32 0) :
    hash_leaf data = sha256 data := if_pos h

theorem hash_leaf_zero : hash_leaf (List.replicate 32 0) = List.replicate 32 0 := by
  show (if List.replicate 32 (0 : Nat) ≠ List.replicate 32 0 then sha256 (List.replicate 32 0)
    else List.replicate 32 0) = List.replicate 32 0
  rw [if_neg (show ¬(List.replicate 32 (0 : Nat) ≠ List.replicate 32 0) from fun hc => hc rfl)]

/-- C6: `hash_leaf` keeps a 32-byte all-zero piece unchanged and maps every
other piece to its SHA-256 digest, which is exactly 32 bytes long. -/
theorem hash_leaf_spec (data : List Nat) :
    (data = List.replicate 32 0 → hash_leaf data = List.replicate 32 0) ∧
    (data ≠ List.replicate 32 0 → hash_leaf data = sha256 data ∧ (hash_leaf data).length = 32) := by
  constructor
  · intro h
    subst h
    exact hash_leaf_zero
  · intro h
    have heq : hash_leaf data = sha256 data := hash_leaf_of_ne data h
    exact ⟨heq, by rw [heq]; exact sha256_length data⟩

theorem hash_leaf_spec_witness :
    hash_leaf (List.replicate 32 0) = List.replicate 32 0 ∧
    (hash_leaf [1] = sha256 [1] ∧ (hash_leaf [1]).length = 32) :=
  ⟨(hash_leaf_spec (List.replicate 32 0)).1 rfl, (hash_leaf_spec [1]).2 (by decide)⟩

/-! ### Projection lemmas for the tree constructor and query functions -/

theorem new_total (bytes : List Nat) :
    (MerkleTree.new bytes).total_non_empty_pieces = (split_file_to_chunks bytes).length := rfl

theorem new_nodes (bytes : List Nat) :
    (MerkleTree.new bytes).nodes =
      populate_tree
        (place_leaves
          (List.replicate (2 * (pad_leaf_layer (split_file_to_chunks bytes)).length - 1 + 1) [])
          (pad_leaf_layer (split_file_to_chunks bytes))
          (pad_leaf_layer (split_file_to_chunks bytes)).length)
        (pad_leaf_layer (split_file_to_chunks bytes)).length := rfl

theorem piece_data_eq (bytes : List Nat) :
    (MerkleTree.new bytes).piece_data =
      (List.range (split_file_to_chunks bytes).length).map
        (fun i => (i, base64Encode ((pad_leaf_layer (split_file_to_chunks bytes)).get! i))) := rfl

theorem proof_def (t : MerkleTree) (n : Nat) : t.proof n =
    if t.total_non_empty_pieces < n then some none
    else if get_sibling (t.nodes.length / 2 + n) < t.nodes.length then
      match t.uncle_traversal n with
      | some uncles =>
          some (some (hexEncode (t.nodes.get! (get_sibling (t.nodes.length / 2 + n))) :: uncles))
      | none => some (some [hexEncode (t.nodes.get! (get_sibling (t.nodes.length / 2 + n)))])
    else none := by
  unfold MerkleTree.proof
  split
  · rfl
  · show (if get_sibling (t.nodes.length / 2 + n) < t.nodes.length then
        match t.uncle_traversal n with
        | some uncles =>
            some (some ([hexEncode (t.nodes.get! (get_sibling (t.nodes.length / 2 + n)))] ++
              uncles))
        | none => some (some [hexEncode (t.nodes.get! (get_sibling (t.nodes.length / 2 + n)))])
      else none) = _
    split
    · split <;> rfl
    · rfl

theorem uncle_traversal_def (t : MerkleTree) (n : Nat) : t.uncle_traversal n =
    if t.total_non_empty_pieces - 1 < n then none
    else some (uncleChainGo t.nodes.length t.nodes (t.nodes.length / 2 + n) []) := rfl

/-! ### The degenerate single-piece tree -/

theorem pad_leaf_layer_eq_self (l : List (List Nat))
    (h : get_next_power_of_two l.length = l.length) : pad_leaf_layer l = l := by
  unfold pad_leaf_layer
  rw [h, Nat.sub_self, List.replicate_zero, List.append_nil]

theorem new_single (c : List Nat) (bytes : List Nat) (hc : split_file_to_chunks bytes = [c]) :
    MerkleTree.new bytes = ⟨[[], hash_leaf c], 1, 1, [(0, base64Encode c)]⟩ := by
  have hpad : pad_leaf_layer [c] = [c] :=
    pad_leaf_layer_eq_self [c] (by rw [List.length_singleton]; decide)
  unfold MerkleTree.new
  simp only [hc, hpad, List.length_singleton]
  rfl

theorem single_uncle_traversal (c : List Nat) :
    MerkleTree.uncle_traversal ⟨[[], hash_leaf c], 1, 1, [(0, base64Encode c)]⟩ 0 = some [] := by
  unfold MerkleTree.uncle_traversal
  norm_num
  rfl

theorem single_proof_eval (c : List Nat) :
    MerkleTree.proof ⟨[[], hash_leaf c], 1, 1, [(0, base64Encode c)]⟩ 0 =
      some (some [hexEncode []]) := by
  unfold MerkleTree.proof
  rw [single_uncle_traversal]
  norm_num
  exact ⟨by decide, rfl⟩

/-- C5 (counterexample): the tree of the one-byte file `[1]` is a single-piece
tree with two node slots; `proof(tree, 0)` does return exactly one element,
but that element is the hex encoding of the empty index-0 slot — the empty
string — not the hex encoding of the 32-byte all-zero sentinel. -/
theorem single_piece_proof_value :
    (MerkleTree.new [1]).total_non_empty_pieces = 1 ∧
    (MerkleTree.new [1]).nodes.length = 2 ∧
    (MerkleTree.new [1]).proof 0 = some (some [hexEncode []]) ∧
    hexEncode [] ≠ hexEncode (List.replicate 32 0) := by decide

/-- C5 (amended): a single-piece file produces a padded leaf count of 1, a
node array of exactly 2 slots, and `proof(tree, 0)` returns exactly one
element: the hex encoding of the (empty) unused index-0 slot, i.e. the empty
string — not the all-zero 32-byte sentinel. -/
theorem single_piece_tree (bytes : List Nat) (h1 : (split_file_to_chunks bytes).length = 1) :
    (MerkleTree.new bytes).total_non_empty_pieces = 1 ∧
    (MerkleTree.new bytes).nodes.length = 2 ∧
    (MerkleTree.new bytes).proof 0 = some (some [hexEncode []]) := by
  rcases List.length_eq_one.mp h1 with ⟨c, hc⟩
  rw [new_single c bytes hc]
  exact ⟨rfl, rfl, single_proof_eval c⟩

theorem single_piece_tree_witness :
    (split_file_to_chunks [1]).length = 1 ∧
    ((MerkleTree.new [1]).total_non_empty_pieces = 1 ∧
      (MerkleTree.new [1]).nodes.length = 2 ∧
      (MerkleTree.new [1]).proof 0 = some (some [hexEncode []])) :=
  ⟨by decide, single_piece_tree [1] (by decide)⟩

/-! ### The piece registry -/

/-- C7 (counterexample): for the one-byte file `[1]`, index 0 is a real piece
but the registry entry is not the base64 encoding of the original one-byte
content (it is the encoding of the zero-padded 1024-byte piece instead). -/
theorem registry_not_unpadded :
    0 < (MerkleTree.new [1]).total_non_empty_pieces ∧
    List.lookup 0 (MerkleTree.new [1]).piece_data ≠ some (base64Encode [1]) := by decide

/-- C7 (amended): for every real piece index `i < pieceCount` the registry
returns the base64 encoding of the stored piece — the 1024-byte zero-padded
block, so for a short final piece the padded content rather than the raw
unpadded file bytes — and every index at or beyond `pieceCount` (in
particular every padding leaf) has no entry. -/
theorem piece_registry_spec (bytes : List Nat) (hne : bytes ≠ []) (i : Nat) :
    (i < (split_file_to_chunks bytes).length →
      List.lookup i (MerkleTree.new bytes).piece_data =
        some (base64Encode ((split_file_to_chunks bytes).get! i))) ∧
    ((split_file_to_chunks bytes).length ≤ i →
      List.lookup i (MerkleTree.new bytes).piece_data = none) := by
  rw [piece_data_eq, lookup_range_map]
  constructor
  · intro hi
    rw [if_pos hi]
    unfold pad_leaf_layer
    rw [get_bang_append_left _ _ i hi]
  · intro hi
    rw [if_neg (by omega)]

theorem piece_registry_spec_witness :
    (([1] : List Nat) ≠ [] ∧ 0 < (split_file_to_chunks [1]).length ∧
      List.lookup 0 (MerkleTree.new [1]).piece_data =
        some (base64Encode ((split_file_to_chunks [1]).get! 0))) ∧
    ((split_file_to_chunks [1]).length ≤ 5 ∧
      List.lookup 5 (MerkleTree.new [1]).piece_data = none) :=
  ⟨⟨by decide, by decide, (piece_registry_spec [1] (by decide) 0).1 (by decide)⟩,
    by decide, (piece_registry_spec [1] (by decide) 5).2 (by decide)⟩

/-! ### A staged evaluation of the leaf hash of the single-piece file `[1]`

Evaluating all 17 SHA-256 blocks of a 1024-byte piece in one kernel reduction
is too deep; the computation is split into three short runs of blocks, chained
by `sha256Blocks_add`, with the explicitly stated intermediate states checked
by `decide`. -/

def chunkTail : List Nat := 128 :: (List.replicate 55 0 ++ [0, 0, 0, 0, 0, 0, 32, 0])

theorem sha256Blocks_nil (f : Nat) (s : Sha256State) : sha256Blocks f s [] = s := by
  cases f <;> rfl

theorem sha256Blocks_cons (f : Nat) (s : Sha256State) (b : Nat) (r : List Nat) :
    sha256Blocks (f + 1) s (b :: r) =
      sha256Blocks f (sha256Block s ((b :: r).take 64)) ((b :: r).drop 64) := rfl

theorem sha256Blocks_add (f1 f2 : Nat) : ∀ (s : Sha256State) (p : List Nat),
    sha256Blocks (f1 + f2) s p = sha256Blocks f2 (sha256Blocks f1 s p) (p.drop (64 * f1)) := by
  induction f1 with
  | zero =>
    intro s p
    rw [Nat.zero_add, Nat.mul_zero, List.drop_zero]
    rfl
  | succ f1 ih =>
    intro s p
    cases p with
    | nil => rw [sha256Blocks_nil, sha256Blocks_nil, List.drop_nil, sha256Blocks_nil]
    | cons b r =>
      have harr : f1 + 1 + f2 = (f1 + f2) + 1 := by omega
      rw [harr, sha256Blocks_cons, sha256Blocks_cons, ih, List.drop_drop]
      have harr2 : 64 + 64 * f1 = 64 * (f1 + 1) := by ring
      rw [harr2]

def sha6 : Sha256State :=
  ⟨3561689515, 319638541, 2470919749, 1134550552, 4193439778, 3471315453, 1623147747, 1711801380⟩

def sha12 : Sha256State :=
  ⟨2491049910, 4198526179, 3512026279, 4283588890, 2793309484, 2250866026, 3825932354, 751649695⟩

def sha17 : Sha256State :=
  ⟨2449317310, 1297768408, 2737588034, 1564794995, 1480867208, 3720451820, 3576383775, 3542319801⟩

def digestChunk1 : List Nat :=
  [145, 253, 157, 190, 77, 90, 95, 216, 163, 44, 71, 66, 93, 68, 224, 115,
   88, 68, 61, 136, 221, 193, 150, 236, 213, 43, 73, 31, 211, 35, 130, 185]

theorem stageA :
    sha256Blocks 6 sha256Start ((1 : Nat) :: (List.replicate 1023 0 ++ chunkTail)) = sha6 := by
  decide

theorem dropStageA :
    ((1 : Nat) :: (List.replicate 1023 0 ++ chunkTail)).drop (64 * 6) =
      List.replicate 640 0 ++ chunkTail := by
  have h1 : (64 * 6 : Nat) = 383 + 1 := by norm_num
  rw [h1, List.drop_succ_cons, List.drop_append_eq_append_drop, List.drop_replicate,
    List.length_replicate]
  norm_num

theorem stageB : sha256Blocks 6 sha6 (List.replicate 640 0 ++ chunkTail) = sha12 := by decide

theorem dropStageB :
    (List.replicate 640 0 ++ chunkTail).drop (64 * 6) = List.replicate 256 0 ++ chunkTail := by
  rw [List.drop_append_eq_append_drop, List.drop_replicate, List.length_replicate]
  norm_num

theorem stageC : sha256Blocks 5 sha12 (List.replicate 256 0 ++ chunkTail) = sha17 := by decide

theorem dropStageC : (List.replicate 256 0 ++ chunkTail).drop (64 * 5) = [] := by
  rw [List.drop_append_eq_append_drop, List.drop_replicate, List.length_replicate]
  have h1 : (256 : Nat) - 64 * 5 = 0 := by norm_num
  have h2 : (64 * 5 : Nat) - 256 = 64 := by norm_num
  rw [h1, h2, List.replicate_zero, List.nil_append]
  have h3 : chunkTail.length ≤ 64 := by
    unfold chunkTail
    simp [List.length_append, List.length_replicate]
  exact List.drop_eq_nil_of_le h3

theorem sha256Pad_chunk1 :
    sha256Pad ((1 : Nat) :: List.replicate 1023 0) =
      (1 : Nat) :: (List.replicate 1023 0 ++ chunkTail) := by
  unfold sha256Pad chunkTail beBytes8
  norm_num [List.length_cons, List.length_replicate]

theorem sha256_chunk1 : sha256 ((1 : Nat) :: List.replicate 1023 0) = digestChunk1 := by
  have hsha : sha256 ((1 : Nat) :: List.replicate 1023 0) =
      stateBytes (sha256Blocks (sha256Pad ((1 : Nat) :: List.replicate 1023 0)).length
        sha256Start (sha256Pad ((1 : Nat) :: List.replicate 1023 0))) := rfl
  rw [hsha, sha256Pad_chunk1]
  have hlen : ((1 : Nat) :: (List.replicate 1023 0 ++ chunkTail)).length = 1088 := by
    simp [chunkTail, List.length_append, List.length_replicate]
  rw [hlen]
  have h17 : (1088 : Nat) = 6 + (6 + (5 + 1071)) := by norm_num
  rw [h17, sha256Blocks_add, stageA, dropStageA, sha256Blocks_add, stageB, dropStageB,
    sha256Blocks_add, stageC, dropStageC, sha256Blocks_nil]
  decide

theorem chunk1_of_one : (split_file_to_chunks [1]).get! 0 = (1 : Nat) :: List.replicate 1023 0 := rfl

theorem hash_leaf_chunk1 : hash_leaf ((split_file_to_chunks [1]).get! 0) = digestChunk1 := by
  rw [chunk1_of_one]
  have hne : ((1 : Nat) :: List.replicate 1023 0) ≠ List.replicate 32 0 := by decide
  rw [hash_leaf_of_ne _ hne, sha256_chunk1]

/-- C1 (counterexample): for the single-piece tree of the one-byte file `[1]`,
index 0 is valid and `proof` returns the one-element chain `[""]` (the hex of
the empty index-0 slot), but replaying that chain against the leaf digest
hashes once more and produces `SHA-256(leafDigest)`, which differs from the
root digest (the root of a single-piece tree *is* the leaf digest). -/
theorem replay_fails_on_single_piece :
    0 < (MerkleTree.new [1]).total_non_empty_pieces ∧
    (MerkleTree.new [1]).proof 0 = some (some [hexEncode []]) ∧
    foldProof [hexEncode []] ((MerkleTree.new [1]).nodes.length / 2 + 0)
        (hash_leaf ((split_file_to_chunks [1]).get! 0)) ≠
      (MerkleTree.new [1]).nodes.get! 1 := by
  have hnew : MerkleTree.new [1] =
      ⟨[[], hash_leaf ((1 : Nat) :: List.replicate 1023 0)], 1, 1,
        [(0, base64Encode ((1 : Nat) :: List.replicate 1023 0))]⟩ :=
    new_single _ [1] rfl
  refine ⟨by rw [hnew]; norm_num, by rw [hnew]; exact single_proof_eval _, ?_⟩
  rw [hnew, chunk1_of_one]
  have hroot : ([[], hash_leaf ((1 : Nat) :: List.replicate 1023 0)] : List (List Nat)).get! 1 =
      hash_leaf ((1 : Nat) :: List.replicate 1023 0) := rfl
  have hlen2 : ([[], hash_leaf ((1 : Nat) :: List.replicate 1023 0)] : List (List Nat)).length
      = 2 := rfl
  rw [hroot, hlen2]
  have hne : ((1 : Nat) :: List.replicate 1023 0) ≠ List.replicate 32 0 := by decide
  rw [hash_leaf_of_ne _ hne, sha256_chunk1]
  have hf : foldProof [hexEncode []] (2 / 2 + 0) digestChunk1 = sha256 digestChunk1 := rfl
  rw [hf]
  decide

/-! ### Correctness of the next-power-of-two bit trick on positive inputs -/

def orStage (K m : Nat) : Nat := m ||| m >>> K

def cascade5 (m : Nat) : Nat :=
  orStage 16 (orStage 8 (orStage 4 (orStage 2 (orStage 1 m))))

theorem gnpt_eq_cascade (n : Nat) : get_next_power_of_two n =
    (cascade5 ((n + (USIZE_MOD - 1)) % USIZE_MOD) + 1) % USIZE_MOD := rfl

theorem orStage_testBit (a K x : Nat)
    (h : ∀ i, a.testBit i = true ↔ ∃ k, k < K ∧ x.testBit (i + k) = true) (i : Nat) :
    (orStage K a).testBit i = true ↔ ∃ k, k < 2 * K ∧ x.testBit (i + k) = true := by
  unfold orStage
  rw [Nat.testBit_lor, Bool.or_eq_true, Nat.testBit_shiftRight, h i, h (K + i)]
  constructor
  · rintro (⟨k, hk, hb⟩ | ⟨k, hk, hb⟩)
    · exact ⟨k, by omega, hb⟩
    · refine ⟨K + k, by omega, ?_⟩
      rw [show i + (K + k) = K + i + k from by omega]
      exact hb
  · rintro ⟨k, hk, hb⟩
    by_cases hlt : k < K
    · exact Or.inl ⟨k, hlt, hb⟩
    · refine Or.inr ⟨k - K, by omega, ?_⟩
      rw [show K + i + (k - K) = i + k from by omega]
      exact hb

theorem cascade5_testBit (m : Nat) (i : Nat) :
    (cascade5 m).testBit i = true ↔ ∃ k, k < 32 ∧ m.testBit (i + k) = true := by
  have h0 : ∀ j, m.testBit j = true ↔ ∃ k, k < 1 ∧ m.testBit (j + k) = true := by
    intro j
    constructor
    · intro hb
      exact ⟨0, Nat.zero_lt_one, by simpa using hb⟩
    · rintro ⟨k, hk, hb⟩
      have hk0 : k = 0 := by omega
      subst hk0
      simpa using hb
  have h1 := orStage_testBit m 1 m h0
  have h2 := orStage_testBit _ 2 m h1
  have h3 := orStage_testBit _ 4 m h2
  have h4 := orStage_testBit _ 8 m h3
  have h5 := orStage_testBit _ 16 m h4
  unfold cascade5
  constructor
  · intro hb
    rcases (h5 i).mp hb with ⟨k, hk, hbb⟩
    exact ⟨k, by omega, hbb⟩
  · rintro ⟨k, hk, hbb⟩
    exact (h5 i).mpr ⟨k, by omega, hbb⟩

theorem exists_testBit_of_le (m i : Nat) (h : 2 ^ i ≤ m) : ∃ j, i ≤ j ∧ m.testBit j = true := by
  by_contra hc
  push_neg at hc
  have hmod : m = m % 2 ^ i := by
    apply Nat.eq_of_testBit_eq
    intro j
    rw [Nat.testBit_mod_two_pow]
    by_cases hj : j < i
    · simp [hj]
    · have hfalse : m.testBit j = false := by
        have := hc j (by omega)
        exact Bool.not_eq_true _ |>.mp this
      simp [hj, hfalse]
  have hlt : m % 2 ^ i < 2 ^ i := Nat.mod_lt m (Nat.pos_pow_of_pos i (by norm_num))
  omega

theorem testBit_false_of_size_le (m j : Nat) (h : m.size ≤ j) : m.testBit j = false := by
  apply Nat.testBit_eq_false_of_lt
  calc m < 2 ^ m.size := Nat.lt_size_self m
    _ ≤ 2 ^ j := Nat.pow_le_pow_right (by norm_num) h

theorem cascade5_eq (m : Nat) (hm : m < 2 ^ 32) : cascade5 m = 2 ^ m.size - 1 := by
  have hsize : m.size ≤ 32 := Nat.size_le.mpr hm
  apply Nat.eq_of_testBit_eq
  intro i
  rw [Nat.testBit_two_pow_sub_one]
  by_cases hi : i < m.size
  · have h2i : 2 ^ i ≤ m := Nat.lt_size.mp hi
    rcases exists_testBit_of_le m i h2i with ⟨j, hij, hbit⟩
    have hjlt : j < m.size := by
      by_contra hcon
      rw [testBit_false_of_size_le m j (by omega)] at hbit
      exact Bool.false_ne_true hbit
    have : (cascade5 m).testBit i = true := by
      rw [cascade5_testBit]
      exact ⟨j - i, by omega, by rw [show i + (j - i) = j from by omega]; exact hbit⟩
    rw [this]
    simp [hi]
  · have : (cascade5 m).testBit i = false := by
      rw [← Bool.not_eq_true, cascade5_testBit]
      rintro ⟨k, hk, hbit⟩
      rw [testBit_false_of_size_le m (i + k) (by omega)] at hbit
      exact Bool.false_ne_true hbit
    rw [this]
    simp [hi]

theorem pow32_lit : (2 : Nat) ^ 32 = 4294967296 := by norm_num

theorem pow42_lit : (2 : Nat) ^ 42 = 4398046511104 := by norm_num

theorem get_next_power_of_two_eq (n : Nat) (h1 : 1 ≤ n) (h2 : n ≤ 2 ^ 32) :
    get_next_power_of_two n = 2 ^ Nat.size (n - 1) := by
  rw [gnpt_eq_cascade]
  have hmod : (n + (USIZE_MOD - 1)) % USIZE_MOD = n - 1 := by
    unfold USIZE_MOD
    rw [pow32_lit] at h2
    omega
  rw [hmod]
  have hlt : n - 1 < 2 ^ 32 := by
    rw [pow32_lit]
    rw [pow32_lit] at h2
    omega
  rw [cascade5_eq _ hlt]
  have hsize : Nat.size (n - 1) ≤ 32 := by
    apply Nat.size_le.mpr
    rw [pow32_lit]
    rw [pow32_lit] at h2
    omega
  have hpow : 2 ^ Nat.size (n - 1) ≤ 2 ^ 32 := Nat.pow_le_pow_right (by norm_num) hsize
  have hpos : 0 < 2 ^ Nat.size (n - 1) := Nat.pos_pow_of_pos _ (by norm_num)
  unfold USIZE_MOD
  rw [pow32_lit] at hpow
  omega

/-! ### The padded leaf layer -/

theorem padded_spec (l : List (List Nat)) (h1 : 1 ≤ l.length) (h2 : l.length ≤ 2 ^ 32) :
    (pad_leaf_layer l).length = 2 ^ Nat.size (l.length - 1) ∧
    l.length ≤ 2 ^ Nat.size (l.length - 1) ∧
    (∀ i, i < l.length → (pad_leaf_layer l).get! i = l.get! i) ∧
    (∀ i, l.length ≤ i → i < 2 ^ Nat.size (l.length - 1) →
      (pad_leaf_layer l).get! i = List.replicate 32 0) := by
  have hle : l.length ≤ 2 ^ Nat.size (l.length - 1) := by
    have := Nat.lt_size_self (l.length - 1)
    omega
  have hg := get_next_power_of_two_eq l.length h1 h2
  unfold pad_leaf_layer
  rw [hg]
  refine ⟨?_, hle, ?_, ?_⟩
  · rw [List.length_append, List.length_replicate]
    omega
  · intro i hi
    exact get_bang_append_left _ _ i hi
  · intro i hi1 hi2
    rw [show i = l.length + (i - l.length) from by omega, get_bang_append_right]
    exact get_bang_replicate _ _ _ (by omega)

/-! ### The breadth-first bottom-up hashing pass

`populate_tree` visits the leaf row once (no writes: the children of a leaf
index fall outside the array), then each internal level from the bottom up,
each internal index exactly once (its second queued copy is skipped via the
visited set), writing `SHA-256(children)` into it.  The following lemmas
replay the queue evolution level by level, reducing `bfsRun` to the simple
descending level sweep `buildDown`. -/

def dupList : List Nat → List Nat
  | [] => []
  | x :: rest => x :: x :: dupList rest

def hashAt (data : List (List Nat)) (j : Nat) : List (List Nat) :=
  data.set j (sha256 (data.get! (2 * j) ++ data.get! (2 * j + 1)))

def writeLevel (k : Nat) (data : List (List Nat)) : List (List Nat) :=
  (List.range' (2 ^ k) (2 ^ k)).foldl hashAt data

def buildDown : Nat → List (List Nat) → List (List Nat)
  | 0, data => hashAt data 1
  | k + 1, data => buildDown k (writeLevel (k + 1) data)

theorem hashAt_length (data : List (List Nat)) (j : Nat) :
    (hashAt data j).length = data.length := List.length_set data j _

theorem foldl_hashAt_length : ∀ (l : List Nat) (data : List (List Nat)),
    (l.foldl hashAt data).length = data.length
  | [], _ => rfl
  | x :: l, data => by
      rw [List.foldl_cons, foldl_hashAt_length l _, hashAt_length]

theorem bfsRun_empty (f : Nat) (data : List (List Nat)) (visited : List Nat) :
    bfsRun f data visited [] = data := by cases f <;> rfl

theorem bfsRun_succ_cons (f : Nat) (data : List (List Nat)) (visited : List Nat)
    (x : Nat) (rest : List Nat) :
    bfsRun (f + 1) data visited (x :: rest) =
      if x ∈ visited then bfsRun f data visited rest
      else bfsRun f
        (if 2 * x < data.length ∧ 2 * x + 1 < data.length then
          data.set x (sha256 (data.get! (2 * x) ++ data.get! (2 * x + 1))) else data)
        (x :: visited)
        (if x / 2 > 0 then rest ++ [x / 2] else rest) := rfl

theorem bfsRun_length : ∀ (f : Nat) (data : List (List Nat)) (visited queue : List Nat),
    (bfsRun f data visited queue).length = data.length
  | 0, _, _, _ => rfl
  | f + 1, data, visited, queue => by
      cases queue with
      | nil => rw [bfsRun_empty]
      | cons x rest =>
        rw [bfsRun_succ_cons]
        by_cases hv : x ∈ visited
        · rw [if_pos hv, bfsRun_length f data visited rest]
        · rw [if_neg hv, bfsRun_length f _ _ _]
          by_cases hw : 2 * x < data.length ∧ 2 * x + 1 < data.length
          · rw [if_pos hw, List.length_set]
          · rw [if_neg hw]

theorem populate_tree_length (data : List (List Nat)) (pieces_length : Nat) :
    (populate_tree data pieces_length).length = data.length :=
  bfsRun_length _ _ _ _

theorem enum_foldl_set_length :
    ∀ (l : List (Nat × List Nat)) (base : List (List Nat)) (L : Nat),
      (l.foldl (fun acc ip => acc.set (ip.1 + L) (hash_leaf ip.2)) base).length = base.length
  | [], _, _ => rfl
  | p :: l, base, L => by
      rw [List.foldl_cons, enum_foldl_set_length l _ L, List.length_set]

theorem place_leaves_length (base pieces : List (List Nat)) (L : Nat) :
    (place_leaves base pieces L).length = base.length :=
  enum_foldl_set_length _ _ _

theorem new_nodes_length (bytes : List Nat)
    (h1 : 1 ≤ (split_file_to_chunks bytes).length) :
    (MerkleTree.new bytes).nodes.length =
      2 * (pad_leaf_layer (split_file_to_chunks bytes)).length := by
  have hpadpos : 1 ≤ (pad_leaf_layer (split_file_to_chunks bytes)).length := by
    unfold pad_leaf_layer
    rw [List.length_append]
    omega
  rw [new_nodes, populate_tree_length, place_leaves_length, List.length_replicate]
  omega

theorem bfsRun_nowrite (data : List (List Nat)) :
    ∀ (l : List Nat) (f : Nat) (visited q : List Nat),
      l.Nodup → (∀ x ∈ l, x ∉ visited) → (∀ x ∈ l, ¬ (2 * x + 1 < data.length)) →
      (∀ x ∈ l, 0 < x / 2) →
      bfsRun (f + l.length) data visited (l ++ q) =
        bfsRun f data (l.reverse ++ visited) (q ++ l.map (fun x => x / 2))
  | [], f, visited, q, _, _, _, _ => by simp
  | x :: l, f, visited, q, hnd, hv, hw, hp => by
      have harr : f + (x :: l).length = (f + l.length) + 1 := by
        rw [List.length_cons]
        omega
      have hwx : ¬ (2 * x < data.length ∧ 2 * x + 1 < data.length) := by
        intro hcon
        exact hw x (by simp) hcon.2
      rw [harr, List.cons_append, bfsRun_succ_cons, if_neg (hv x (by simp)), if_neg hwx,
        if_pos (hp x (by simp))]
      rw [List.append_assoc]
      rw [bfsRun_nowrite data l (f) (x :: visited) (q ++ [x / 2])
        (List.Nodup.of_cons hnd)
        (fun y hy => by
          simp only [List.mem_cons]
          rintro (rfl | hmem)
          · exact (List.Nodup.not_mem hnd) hy
          · exact hv y (by simp [hy]) hmem)
        (fun y hy => hw y (by simp [hy]))
        (fun y hy => hp y (by simp [hy]))]
      have hA : (x :: l).reverse ++ visited = l.reverse ++ (x :: visited) := by
        rw [List.reverse_cons, List.append_assoc]
        rfl
      have hB : q ++ (x :: l).map (fun y => y / 2) = (q ++ [x / 2]) ++ l.map (fun y => y / 2) := by
        rw [List.map_cons, List.append_assoc]
        rfl
      rw [hA, hB]

theorem bfsRun_write : ∀ (l : List Nat) (f : Nat) (data : List (List Nat)) (visited q : List Nat),
      l.Nodup → (∀ x ∈ l, x ∉ visited) → (∀ x ∈ l, 2 * x + 1 < data.length) →
      (∀ x ∈ l, 0 < x / 2) →
      bfsRun (f + 2 * l.length) data visited (dupList l ++ q) =
        bfsRun f (l.foldl hashAt data) (l.reverse ++ visited) (q ++ l.map (fun x => x / 2))
  | [], f, data, visited, q, _, _, _, _ => by simp [dupList]
  | x :: l, f, data, visited, q, hnd, hv, hw, hp => by
      have harr : f + 2 * (x :: l).length = ((f + 2 * l.length) + 1) + 1 := by
        rw [List.length_cons]
        omega
      have hwx : 2 * x < data.length ∧ 2 * x + 1 < data.length :=
        ⟨by have := hw x (by simp); omega, hw x (by simp)⟩
      have hstep : dupList (x :: l) ++ q = x :: (x :: (dupList l ++ q)) := rfl
      rw [harr, hstep, bfsRun_succ_cons, if_neg (hv x (by simp)), if_pos hwx,
        if_pos (hp x (by simp))]
      rw [show (x :: (dupList l ++ q)) ++ [x / 2] = x :: (dupList l ++ (q ++ [x / 2])) from by
        simp [List.append_assoc]]
      rw [bfsRun_succ_cons, if_pos (by simp)]
      rw [show data.set x (sha256 (data.get! (2 * x) ++ data.get! (2 * x + 1))) =
        hashAt data x from rfl]
      rw [bfsRun_write l f (hashAt data x) (x :: visited) (q ++ [x / 2])
        (List.Nodup.of_cons hnd)
        (fun y hy => by
          simp only [List.mem_cons]
          rintro (rfl | hmem)
          · exact (List.Nodup.not_mem hnd) hy
          · exact hv y (by simp [hy]) hmem)
        (fun y hy => by rw [hashAt_length]; exact hw y (by simp [hy]))
        (fun y hy => hp y (by simp [hy]))]
      have hA : (x :: l).reverse ++ visited = l.reverse ++ (x :: visited) := by
        rw [List.reverse_cons, List.append_assoc]
        rfl
      have hB : q ++ (x :: l).map (fun y => y / 2) = (q ++ [x / 2]) ++ l.map (fun y => y / 2) := by
        rw [List.map_cons, List.append_assoc]
        rfl
      rw [List.foldl_cons, hA, hB]

theorem bfsRun_root (f : Nat) (data : List (List Nat)) (visited : List Nat)
    (h1 : (1 : Nat) ∉ visited) (h2 : 3 < data.length) :
    bfsRun (f + 2) data visited (dupList [1]) = hashAt data 1 := by
  have hd : dupList [1] = [1, 1] := rfl
  have hwx : 2 * 1 < data.length ∧ 2 * 1 + 1 < data.length := ⟨by omega, by omega⟩
  rw [hd, show f + 2 = (f + 1) + 1 from rfl, bfsRun_succ_cons, if_neg h1, if_pos hwx,
    if_neg (show ¬ ((1 : Nat) / 2 > 0) from by norm_num)]
  rw [bfsRun_succ_cons, if_pos (by simp)]
  rw [bfsRun_empty]
  rfl

theorem range'_halve (b : Nat) : ∀ (a : Nat),
    (List.range' (2 * a) (2 * b)).map (fun x => x / 2) = dupList (List.range' a b) := by
  induction b with
  | zero => intro a; rfl
  | succ b ih =>
    intro a
    have h1 : 2 * (b + 1) = (2 * b + 1) + 1 := by omega
    rw [h1, List.range'_succ, List.range'_succ, List.map_cons, List.map_cons]
    have e1 : 2 * a / 2 = a := by omega
    have e2 : (2 * a + 1) / 2 = a := by omega
    have e3 : 2 * a + 1 + 1 = 2 * (a + 1) := by omega
    rw [e1, e2, e3, ih (a + 1)]
    rfl

theorem bfsRun_levels : ∀ (k : Nat) (f : Nat) (data : List (List Nat)) (visited : List Nat),
    (∀ j, j < 2 ^ (k + 1) → j ∉ visited) → 2 ^ (k + 2) ≤ data.length →
    bfsRun (f + (2 ^ (k + 2) - 2)) data visited (dupList (List.range' (2 ^ k) (2 ^ k))) =
      buildDown k data
  | 0, f, data, visited, hv, hlen => by
      have h2 : (2 : Nat) ^ (0 + 2) - 2 = 2 := by norm_num
      have hr : List.range' (2 ^ 0) (2 ^ 0) = [1] := rfl
      rw [h2, hr, bfsRun_root f data visited (hv 1 (by norm_num)) (by
        have : (2 : Nat) ^ (0 + 2) = 4 := by norm_num
        omega)]
      rfl
  | k + 1, f, data, visited, hv, hlen => by
      have hp1 : (2 : Nat) ^ (k + 1) = 2 * 2 ^ k := by rw [Nat.pow_succ]; ring
      have hp2 : (2 : Nat) ^ (k + 2) = 2 * 2 ^ (k + 1) := by rw [Nat.pow_succ]; ring
      have hp3 : (2 : Nat) ^ (k + 3) = 2 * 2 ^ (k + 2) := by rw [Nat.pow_succ]; ring
      have hppos : (0 : Nat) < 2 ^ k := Nat.pos_pow_of_pos _ (by norm_num)
      have hlr : (List.range' (2 ^ (k + 1)) (2 ^ (k + 1))).length = 2 ^ (k + 1) :=
        List.length_range' _ _ _
      have harr : f + (2 ^ (k + 1 + 2) - 2) =
          (f + (2 ^ (k + 2) - 2)) + 2 * (List.range' (2 ^ (k + 1)) (2 ^ (k + 1))).length := by
        rw [hlr]
        have : (2 : Nat) ^ (k + 1 + 2) = 2 * 2 ^ (k + 2) := by rw [Nat.pow_succ]; ring
        omega
      have hmem : ∀ x ∈ List.range' (2 ^ (k + 1)) (2 ^ (k + 1)),
          2 ^ (k + 1) ≤ x ∧ x < 2 ^ (k + 2) := by
        intro x hx
        rw [List.mem_range'_1] at hx
        omega
      rw [show dupList (List.range' (2 ^ (k + 1)) (2 ^ (k + 1))) =
          dupList (List.range' (2 ^ (k + 1)) (2 ^ (k + 1))) ++ [] from by simp]
      rw [harr, bfsRun_write (List.range' (2 ^ (k + 1)) (2 ^ (k + 1))) _ data visited []
        (List.nodup_range' _ _)
        (fun x hx => hv x (by have := hmem x hx; omega))
        (fun x hx => by have := hmem x hx; omega)
        (fun x hx => by have := hmem x hx; omega)]
      rw [List.nil_append]
      rw [show List.range' (2 ^ (k + 1)) (2 ^ (k + 1)) =
        List.range' (2 * 2 ^ k) (2 * 2 ^ k) from by rw [hp1]]
      rw [range'_halve]
      rw [bfsRun_levels k f _ _
        (fun j hj => by
          rw [List.mem_append, List.mem_reverse]
          rintro (hmem | hmem)
          · rw [List.mem_range'_1] at hmem
            omega
          · exact hv j (by omega) hmem)
        (by rw [foldl_hashAt_length]; omega)]
      rw [show List.range' (2 * 2 ^ k) (2 * 2 ^ k) =
        List.range' (2 ^ (k + 1)) (2 ^ (k + 1)) from by rw [hp1]]
      rfl

theorem populate_tree_spec (d : Nat) (data : List (List Nat)) (L : Nat) (hLd : L = 2 ^ d)
    (hlen : data.length = 2 ^ (d + 1)) :
    populate_tree data L = if d = 0 then data else buildDown (d - 1) data := by
  subst hLd
  cases d with
  | zero =>
    rw [if_pos rfl]
    unfold populate_tree
    have hq : List.range' (2 ^ 0) (2 ^ 0) = [1] := rfl
    have hf : 3 * data.length + 3 = 8 + 1 := by
      rw [hlen]
      norm_num
    rw [hq, hf, bfsRun_succ_cons, if_neg (List.not_mem_nil 1),
      if_neg (show ¬ (2 * 1 < data.length ∧ 2 * 1 + 1 < data.length) from by
        rw [hlen]
        norm_num),
      if_neg (show ¬ ((1 : Nat) / 2 > 0) from by norm_num)]
    exact bfsRun_empty _ _ _
  | succ d' =>
    rw [if_neg (Nat.succ_ne_zero d')]
    unfold populate_tree
    have hp1 : (2 : Nat) ^ (d' + 1) = 2 * 2 ^ d' := by rw [Nat.pow_succ]; ring
    have hp2 : (2 : Nat) ^ (d' + 2) = 2 * 2 ^ (d' + 1) := by rw [Nat.pow_succ]; ring
    have hppos : (0 : Nat) < 2 ^ d' := Nat.pos_pow_of_pos _ (by norm_num)
    have hlr : (List.range' (2 ^ (d' + 1)) (2 ^ (d' + 1))).length = 2 ^ (d' + 1) :=
      List.length_range' _ _ _
    have hmem : ∀ x ∈ List.range' (2 ^ (d' + 1)) (2 ^ (d' + 1)),
        2 ^ (d' + 1) ≤ x ∧ x < 2 ^ (d' + 2) := by
      intro x hx
      rw [List.mem_range'_1] at hx
      omega
    have harr : 3 * data.length + 3 =
        ((3 * data.length + 3 - 2 ^ (d' + 1) - (2 ^ (d' + 2) - 2)) + (2 ^ (d' + 2) - 2)) +
          (List.range' (2 ^ (d' + 1)) (2 ^ (d' + 1))).length := by
      rw [hlr, hlen]
      omega
    rw [show List.range' (2 ^ (d' + 1)) (2 ^ (d' + 1)) =
        List.range' (2 ^ (d' + 1)) (2 ^ (d' + 1)) ++ [] from by simp]
    rw [harr, bfsRun_nowrite data (List.range' (2 ^ (d' + 1)) (2 ^ (d' + 1))) _ [] []
      (List.nodup_range' _ _)
      (fun x _ => List.not_mem_nil x)
      (fun x hx => by have := hmem x hx; rw [hlen]; omega)
      (fun x hx => by have := hmem x hx; omega)]
    rw [List.nil_append]
    rw [show List.range' (2 ^ (d' + 1)) (2 ^ (d' + 1)) =
      List.range' (2 * 2 ^ d') (2 * 2 ^ d') from by rw [hp1]]
    rw [range'_halve]
    rw [bfsRun_levels d' _ data _
      (fun j hj => by
        rw [List.append_nil, List.mem_reverse, List.mem_range'_1]
        omega)
      (by omega)]
    rw [Nat.add_sub_cancel]

/-! ### Values written by the level sweep -/

theorem foldl_hashAt_get : ∀ (l : List Nat) (data : List (List Nat)),
    l.Nodup → (∀ x ∈ l, x < data.length) →
    (∀ x ∈ l, ∀ y ∈ l, x ≠ 2 * y ∧ x ≠ 2 * y + 1) →
    (∀ j, j ∉ l → (l.foldl hashAt data).get! j = data.get! j) ∧
    (∀ j, j ∈ l → (l.foldl hashAt data).get! j =
      sha256 (data.get! (2 * j) ++ data.get! (2 * j + 1)))
  | [], data, _, _, _ => ⟨fun _ _ => rfl, fun j hj => absurd hj (List.not_mem_nil j)⟩
  | x :: l, data, hnd, hlt, hpair => by
      have hih := foldl_hashAt_get l (hashAt data x)
        (List.Nodup.of_cons hnd)
        (fun y hy => by rw [hashAt_length]; exact hlt y (by simp [hy]))
        (fun y hy z hz => hpair y (by simp [hy]) z (by simp [hz]))
      rw [List.foldl_cons]
      constructor
      · intro j hj
        have hjx : j ≠ x := fun hcon => hj (by simp [hcon])
        have hjl : j ∉ l := fun hcon => hj (by simp [hcon])
        rw [hih.1 j hjl]
        exact get_bang_set_ne data x j _ (fun hcon => hjx hcon.symm)
      · intro j hj
        rcases List.mem_cons.mp hj with rfl | hjl
        · have hxl : j ∉ l := List.Nodup.not_mem hnd
          rw [hih.1 j hxl]
          exact get_bang_set_self data j _ (hlt j (by simp))
        · rw [hih.2 j hjl]
          have h2j : (2 : Nat) * j ≠ x := by
            have := (hpair x (by simp) j (by simp [hjl])).1
            omega
          have h2j1 : 2 * j + 1 ≠ x := by
            have := (hpair x (by simp) j (by simp [hjl])).2
            omega
          rw [show hashAt data x = data.set x (sha256 (data.get! (2 * x) ++
            data.get! (2 * x + 1))) from rfl]
          rw [get_bang_set_ne data x (2 * j) _ (fun hcon => h2j hcon.symm),
            get_bang_set_ne data x (2 * j + 1) _ (fun hcon => h2j1 hcon.symm)]

theorem buildDown_length : ∀ (k : Nat) (data : List (List Nat)),
    (buildDown k data).length = data.length
  | 0, data => hashAt_length data 1
  | k + 1, data => by
      rw [show buildDown (k + 1) data = buildDown k (writeLevel (k + 1) data) from rfl,
        buildDown_length k _]
      exact foldl_hashAt_length _ _

theorem writeLevel_get (k : Nat) (data : List (List Nat)) (hlen : 2 ^ (k + 1) ≤ data.length) :
    (∀ j, ¬ (2 ^ k ≤ j ∧ j < 2 ^ (k + 1)) → (writeLevel k data).get! j = data.get! j) ∧
    (∀ j, 2 ^ k ≤ j → j < 2 ^ (k + 1) → (writeLevel k data).get! j =
      sha256 (data.get! (2 * j) ++ data.get! (2 * j + 1))) := by
  have hp1 : (2 : Nat) ^ (k + 1) = 2 * 2 ^ k := by rw [Nat.pow_succ]; ring
  have hmem : ∀ x, x ∈ List.range' (2 ^ k) (2 ^ k) ↔ 2 ^ k ≤ x ∧ x < 2 ^ (k + 1) := by
    intro x
    rw [List.mem_range'_1]
    omega
  have hfold := foldl_hashAt_get (List.range' (2 ^ k) (2 ^ k)) data
    (List.nodup_range' _ _)
    (fun x hx => by
      rw [hmem] at hx
      omega)
    (fun x hx y hy => by
      rw [hmem] at hx hy
      omega)
  exact ⟨fun j hj => hfold.1 j (fun hcon => hj ((hmem j).mp hcon)),
    fun j hj1 hj2 => hfold.2 j ((hmem j).mpr ⟨hj1, hj2⟩)⟩

theorem buildDown_spec : ∀ (k : Nat) (data : List (List Nat)), 2 ^ (k + 2) ≤ data.length →
    (∀ j, j = 0 ∨ 2 ^ (k + 1) ≤ j → (buildDown k data).get! j = data.get! j) ∧
    (∀ j, 1 ≤ j → j < 2 ^ (k + 1) → (buildDown k data).get! j =
      sha256 ((buildDown k data).get! (2 * j) ++ (buildDown k data).get! (2 * j + 1)))
  | 0, data, hlen => by
      have h4 : (4 : Nat) ≤ data.length := by
        have : (2 : Nat) ^ (0 + 2) = 4 := by norm_num
        omega
      have hb : buildDown 0 data = data.set 1 (sha256 (data.get! 2 ++ data.get! 3)) := by
        rw [show buildDown 0 data = hashAt data 1 from rfl]
        rfl
      constructor
      · intro j hj
        rw [hb]
        exact get_bang_set_ne data 1 j _ (by omega)
      · intro j hj1 hj2
        have hj : j = 1 := by
          have : (2 : Nat) ^ (0 + 1) = 2 := by norm_num
          omega
        subst hj
        rw [hb, get_bang_set_self data 1 _ (by omega),
          get_bang_set_ne data 1 2 _ (by omega), get_bang_set_ne data 1 3 _ (by omega)]
  | k + 1, data, hlen => by
      have hE1 : k + 1 + 1 = k + 2 := by omega
      have hE2 : k + 1 + 2 = k + 3 := by omega
      rw [hE2] at hlen
      rw [hE1]
      have hp2 : (2 : Nat) ^ (k + 2) = 2 * 2 ^ (k + 1) := by rw [Nat.pow_succ]; ring
      have hp3 : (2 : Nat) ^ (k + 3) = 2 * 2 ^ (k + 2) := by rw [Nat.pow_succ]; ring
      have hppos : (0 : Nat) < 2 ^ (k + 1) := Nat.pos_pow_of_pos _ (by norm_num)
      have hwlen : (writeLevel (k + 1) data).length = data.length := foldl_hashAt_length _ _
      have hwl := writeLevel_get (k + 1) data (by rw [hE1]; omega)
      rw [hE1] at hwl
      have hih := buildDown_spec k (writeLevel (k + 1) data) (by rw [hwlen]; omega)
      have hbd : buildDown (k + 1) data = buildDown k (writeLevel (k + 1) data) := rfl
      rw [hbd]
      constructor
      · intro j hj
        rw [hih.1 j (by
          rcases hj with h | h
          · exact Or.inl h
          · exact Or.inr (by omega))]
        exact hwl.1 j (by omega)
      · intro j hj1 hj2
        by_cases hcase : j < 2 ^ (k + 1)
        · exact hih.2 j hj1 hcase
        · push_neg at hcase
          have e1 : (buildDown k (writeLevel (k + 1) data)).get! j =
              sha256 (data.get! (2 * j) ++ data.get! (2 * j + 1)) := by
            rw [hih.1 j (Or.inr hcase)]
            exact hwl.2 j hcase (by omega)
          have e2 : (buildDown k (writeLevel (k + 1) data)).get! (2 * j) = data.get! (2 * j) := by
            rw [hih.1 (2 * j) (Or.inr (by omega))]
            exact hwl.1 (2 * j) (by omega)
          have e3 : (buildDown k (writeLevel (k + 1) data)).get! (2 * j + 1) =
              data.get! (2 * j + 1) := by
            rw [hih.1 (2 * j + 1) (Or.inr (by omega))]
            exact hwl.1 (2 * j + 1) (by omega)
          rw [e1, e2, e3]

/-! ### Leaf placement -/

theorem place_go (L : Nat) : ∀ (pieces : List (List Nat)) (s : Nat) (base : List (List Nat)),
    ((List.enumFrom s pieces).foldl (fun acc ip => acc.set (ip.1 + L) (hash_leaf ip.2))
        base).length = base.length ∧
    (∀ j, j < s + L ∨ s + L + pieces.length ≤ j →
      ((List.enumFrom s pieces).foldl (fun acc ip => acc.set (ip.1 + L) (hash_leaf ip.2))
        base).get! j = base.get! j) ∧
    (∀ i, i < pieces.length → s + i + L < base.length →
      ((List.enumFrom s pieces).foldl (fun acc ip => acc.set (ip.1 + L) (hash_leaf ip.2))
        base).get! (s + i + L) = hash_leaf (pieces.get! i))
  | [], s, base => ⟨rfl, fun _ _ => rfl, fun i hi _ => absurd hi (by simp)⟩
  | p :: pieces, s, base => by
      have hstep : List.enumFrom s (p :: pieces) = (s, p) :: List.enumFrom (s + 1) pieces := rfl
      have hih := place_go L pieces (s + 1) (base.set (s + L) (hash_leaf p))
      rw [hstep, List.foldl_cons]
      rw [show ((s, p).1 + L : Nat) = s + L from rfl,
        show hash_leaf (s, p).2 = hash_leaf p from rfl]
      refine ⟨?_, ?_, ?_⟩
      · rw [hih.1, List.length_set]
      · intro j hj
        rw [List.length_cons] at hj
        rw [hih.2.1 j (by omega)]
        exact get_bang_set_ne base (s + L) j _ (by omega)
      · intro i hi hilen
        rw [List.length_cons] at hi
        cases i with
        | zero =>
          rw [hih.2.1 (s + 0 + L) (by omega), show s + 0 + L = s + L from by omega,
            get_bang_set_self base (s + L) _ (by omega)]
          rfl
        | succ i' =>
          have hr := hih.2.2 i' (by omega) (by rw [List.length_set]; omega)
          rw [show s + (i' + 1) + L = s + 1 + i' + L from by omega, hr]
          rfl

/-! ### The fully built node array -/

def built (pieces : List (List Nat)) : List (List Nat) :=
  populate_tree
    (place_leaves (List.replicate (2 * pieces.length - 1 + 1) []) pieces pieces.length)
    pieces.length

theorem new_nodes_built (bytes : List Nat) :
    (MerkleTree.new bytes).nodes = built (pad_leaf_layer (split_file_to_chunks bytes)) := rfl

theorem built_spec (pieces : List (List Nat)) (d : Nat) (hL : pieces.length = 2 ^ d) :
    (built pieces).length = 2 ^ (d + 1) ∧
    (∀ i, i < 2 ^ d → (built pieces).get! (2 ^ d + i) = hash_leaf (pieces.get! i)) ∧
    (∀ j, 1 ≤ j → j < 2 ^ d → (built pieces).get! j =
      sha256 ((built pieces).get! (2 * j) ++ (built pieces).get! (2 * j + 1))) ∧
    (built pieces).get! 0 = [] := by
  have hppos : (0 : Nat) < 2 ^ d := Nat.pos_pow_of_pos _ (by norm_num)
  have hp1 : (2 : Nat) ^ (d + 1) = 2 * 2 ^ d := by rw [Nat.pow_succ]; ring
  have hbaselen :
      (List.replicate (2 * pieces.length - 1 + 1) ([] : List Nat)).length = 2 ^ (d + 1) := by
    rw [List.length_replicate, hL]
    omega
  have hplace := place_go pieces.length pieces 0
    (List.replicate (2 * pieces.length - 1 + 1) ([] : List Nat))
  have hWeq : place_leaves (List.replicate (2 * pieces.length - 1 + 1) ([] : List Nat)) pieces
      pieces.length =
      (List.enumFrom 0 pieces).foldl (fun acc ip => acc.set (ip.1 + pieces.length)
        (hash_leaf ip.2)) (List.replicate (2 * pieces.length - 1 + 1) ([] : List Nat)) := rfl
  have hWlen : (place_leaves (List.replicate (2 * pieces.length - 1 + 1) ([] : List Nat))
      pieces pieces.length).length = 2 ^ (d + 1) := by
    rw [hWeq, hplace.1, hbaselen]
  have hWleaf : ∀ i, i < 2 ^ d →
      (place_leaves (List.replicate (2 * pieces.length - 1 + 1) ([] : List Nat)) pieces
        pieces.length).get! (2 ^ d + i) = hash_leaf (pieces.get! i) := by
    intro i hi
    rw [show 2 ^ d + i = 0 + i + pieces.length from by rw [hL]; omega, hWeq]
    exact hplace.2.2 i (by omega) (by rw [hbaselen, hL]; omega)
  have hWlow : ∀ j, j < 2 ^ d →
      (place_leaves (List.replicate (2 * pieces.length - 1 + 1) ([] : List Nat)) pieces
        pieces.length).get! j = ([] : List Nat) := by
    intro j hj
    rw [hWeq, hplace.2.1 j (Or.inl (by rw [hL]; omega))]
    exact get_bang_replicate _ _ _ (by rw [hL]; omega)
  have hbuilt0 : built pieces = populate_tree
      (place_leaves (List.replicate (2 * pieces.length - 1 + 1) ([] : List Nat)) pieces
        pieces.length) pieces.length := rfl
  rw [populate_tree_spec d _ pieces.length hL hWlen] at hbuilt0
  cases d with
  | zero =>
    rw [if_pos rfl] at hbuilt0
    refine ⟨by rw [hbuilt0, hWlen], ?_, ?_, ?_⟩
    · intro i hi
      rw [hbuilt0]
      exact hWleaf i hi
    · intro j hj1 hj2
      have : (2 : Nat) ^ 0 = 1 := by norm_num
      omega
    · rw [hbuilt0]
      exact hWlow 0 hppos
  | succ d' =>
    rw [if_neg (Nat.succ_ne_zero d'), Nat.add_sub_cancel] at hbuilt0
    have hbspec := buildDown_spec d' _ (by rw [hWlen])
    refine ⟨?_, ?_, ?_, ?_⟩
    · rw [hbuilt0, buildDown_length, hWlen]
    · intro i hi
      rw [hbuilt0, hbspec.1 (2 ^ (d' + 1) + i) (Or.inr (by omega))]
      exact hWleaf i hi
    · intro j hj1 hj2
      rw [hbuilt0]
      exact hbspec.2 j hj1 hj2
    · rw [hbuilt0, hbspec.1 0 (Or.inl rfl)]
      exact hWlow 0 hppos

theorem count_facts (bytes : List Nat) (h1 : bytes ≠ []) (h2 : bytes.length ≤ 2 ^ 42) :
    1 ≤ (split_file_to_chunks bytes).length ∧ (split_file_to_chunks bytes).length ≤ 2 ^ 32 := by
  refine ⟨split_pos_of_ne_nil bytes h1, ?_⟩
  rw [split_length, pow32_lit]
  rw [pow42_lit] at h2
  omega

/-- C2 (failing case): for every non-empty file the index `pieceCount` itself —
the first out-of-range index — is accepted by `proof`, whose bound check is
`piece_number > total_non_empty_pieces` instead of `≥`: when `pieceCount` is
below the padded leaf count `L` the call returns `some` proof (the hex of a
padding leaf's sibling) instead of `None`, and when `pieceCount` equals `L`
the sibling index `2L + 1` is out of bounds and the call panics (the outer
`none`); the piece registry, by contrast, correctly has no entry there. -/
theorem proof_accepts_piece_count (bytes : List Nat)
    (h1 : 1 ≤ (split_file_to_chunks bytes).length) :
    List.lookup (split_file_to_chunks bytes).length (MerkleTree.new bytes).piece_data = none ∧
    ((split_file_to_chunks bytes).length < (pad_leaf_layer (split_file_to_chunks bytes)).length →
      (MerkleTree.new bytes).proof (split_file_to_chunks bytes).length =
        some (some [hexEncode ((MerkleTree.new bytes).nodes.get!
          (get_sibling ((pad_leaf_layer (split_file_to_chunks bytes)).length +
            (split_file_to_chunks bytes).length)))])) ∧
    ((split_file_to_chunks bytes).length = (pad_leaf_layer (split_file_to_chunks bytes)).length →
      (MerkleTree.new bytes).proof (split_file_to_chunks bytes).length = none) := by
  have hnl := new_nodes_length bytes h1
  have hhalf : (MerkleTree.new bytes).nodes.length / 2 =
      (pad_leaf_layer (split_file_to_chunks bytes)).length := by
    omega
  refine ⟨?_, ?_, ?_⟩
  · rw [piece_data_eq, lookup_range_map, if_neg (lt_irrefl _)]
  · intro hlt
    have hbnd : get_sibling ((MerkleTree.new bytes).nodes.length / 2 +
        (split_file_to_chunks bytes).length) < (MerkleTree.new bytes).nodes.length := by
      rw [hhalf, hnl]
      unfold get_sibling
      by_cases hpar : ((pad_leaf_layer (split_file_to_chunks bytes)).length +
          (split_file_to_chunks bytes).length) % 2 = 0
      · rw [if_pos hpar]
        omega
      · rw [if_neg hpar]
        omega
    rw [proof_def, new_total, if_neg (lt_irrefl _), if_pos hbnd,
      uncle_traversal_def, new_total, if_pos (by omega), hhalf]
  · intro heq
    have hnbnd : ¬ (get_sibling ((MerkleTree.new bytes).nodes.length / 2 +
        (split_file_to_chunks bytes).length) < (MerkleTree.new bytes).nodes.length) := by
      rw [hhalf, hnl, heq]
      unfold get_sibling
      rw [if_pos (by omega)]
      omega
    rw [proof_def, new_total, if_neg (lt_irrefl _), if_neg hnbnd]

theorem proof_accepts_piece_count_witness :
    1 ≤ (split_file_to_chunks (List.replicate 2049 0)).length ∧
    (List.lookup (split_file_to_chunks (List.replicate 2049 0)).length
        (MerkleTree.new (List.replicate 2049 0)).piece_data = none ∧
      ((split_file_to_chunks (List.replicate 2049 0)).length <
          (pad_leaf_layer (split_file_to_chunks (List.replicate 2049 0))).length →
        (MerkleTree.new (List.replicate 2049 0)).proof
            (split_file_to_chunks (List.replicate 2049 0)).length =
          some (some [hexEncode ((MerkleTree.new (List.replicate 2049 0)).nodes.get!
            (get_sibling ((pad_leaf_layer (split_file_to_chunks (List.replicate 2049 0))).length +
              (split_file_to_chunks (List.replicate 2049 0)).length)))])) ∧
      ((split_file_to_chunks (List.replicate 2049 0)).length =
          (pad_leaf_layer (split_file_to_chunks (List.replicate 2049 0))).length →
        (MerkleTree.new (List.replicate 2049 0)).proof
          (split_file_to_chunks (List.replicate 2049 0)).length = none)) := by
  have h1 : 1 ≤ (split_file_to_chunks (List.replicate 2049 0)).length := by
    rw [split_length, List.length_replicate]
    norm_num
  exact ⟨h1, proof_accepts_piece_count (List.replicate 2049 0) h1⟩

theorem replicate_1025_ne_nil : List.replicate 1025 (0 : Nat) ≠ [] := by
  simp

theorem replicate_1025_len_le : (List.replicate 1025 (0 : Nat)).length ≤ 2 ^ 42 := by
  rw [List.length_replicate]
  norm_num

theorem count_1025 : (split_file_to_chunks (List.replicate 1025 0)).length = 2 := by
  rw [split_length, List.length_replicate]

theorem get_uncle_eq (x : Nat) : get_uncle x =
    if x / 2 = 0 ∨ x / 2 / 2 = 0 then none
    else if x / 2 % 2 = 0 then some (x / 2 / 2 * 2 + 1) else some (x / 2 / 2 * 2) := rfl

theorem get_uncle_none_of_lt (n : Nat) (h : n < 4) : get_uncle n = none := by
  rw [get_uncle_eq, if_pos (by omega)]

theorem get_uncle_of_ge (n : Nat) (h : 4 ≤ n) : get_uncle n = some (get_sibling (n / 2)) := by
  rw [get_uncle_eq, if_neg (by omega)]
  unfold get_sibling
  by_cases hp : n / 2 % 2 = 0
  · rw [if_pos hp, if_pos hp]
    congr 1
    omega
  · rw [if_neg hp, if_neg hp]
    congr 1
    omega

theorem get_sibling_eq (x : Nat) : get_sibling x = if x % 2 = 0 then x + 1 else x - 1 := rfl

theorem sibling_range (e x : Nat) (he : 1 ≤ e) (h1 : 2 ^ e ≤ x) (h2 : x < 2 ^ (e + 1)) :
    2 ^ e ≤ get_sibling x ∧ get_sibling x < 2 ^ (e + 1) := by
  have hpe : (2 : Nat) ^ (e + 1) = 2 * 2 ^ e := by rw [Nat.pow_succ]; ring
  have hpe2 : (2 : Nat) ^ e = 2 * 2 ^ (e - 1) := by
    cases e with
    | zero => omega
    | succ e' =>
      rw [Nat.add_sub_cancel, Nat.pow_succ]
      ring
  rw [get_sibling_eq]
  split <;> omega

theorem sibling_div (x : Nat) : get_sibling x / 2 = x / 2 := by
  rw [get_sibling_eq]
  split <;> omega

theorem sib_div_pow (n k : Nat) (hk : 1 ≤ k) :
    get_sibling (n / 2) / 2 ^ k = n / 2 ^ (k + 1) := by
  cases k with
  | zero => omega
  | succ k' =>
    have h1 : (2 : Nat) ^ (k' + 1) = 2 * 2 ^ k' := by rw [Nat.pow_succ]; ring
    have h2 : (2 : Nat) ^ (k' + 1 + 1) = 2 * (2 * 2 ^ k') := by
      rw [Nat.pow_succ, Nat.pow_succ]
      ring
    rw [h1, h2, ← Nat.div_div_eq_div_mul, ← Nat.div_div_eq_div_mul, sibling_div,
      Nat.div_div_eq_div_mul, Nat.div_div_eq_div_mul]

theorem map_range'_shift_rel {α : Type} (g1 g2 : Nat → α) :
    ∀ (m s : Nat), (∀ k, s ≤ k → g1 k = g2 (k + 1)) →
    (List.range' s m).map g1 = (List.range' (s + 1) m).map g2
  | 0, s, _ => rfl
  | m + 1, s, h => by
      rw [List.range'_succ, List.range'_succ, List.map_cons, List.map_cons, h s le_rfl,
        map_range'_shift_rel g1 g2 m (s + 1) (fun k hk => h k (by omega))]

theorem uncleChainGo_spec (nodes : List (List Nat)) :
    ∀ (e : Nat) (fuel : Nat) (n : Nat) (acc : List String),
    2 ^ e ≤ n → n < 2 ^ (e + 1) → e ≤ fuel →
    uncleChainGo fuel nodes n acc =
      acc ++ (List.range' 1 (e - 1)).map
        (fun k => hexEncode (nodes.get! (get_sibling (n / 2 ^ k))))
  | 0, fuel, n, acc, h1, h2, hf => by
      have hn : n = 1 := by
        have : (2 : Nat) ^ 0 = 1 := by norm_num
        have : (2 : Nat) ^ (0 + 1) = 2 := by norm_num
        omega
      subst hn
      cases fuel with
      | zero => simp [uncleChainGo]
      | succ f =>
        rw [show uncleChainGo (f + 1) nodes 1 acc =
          (match get_uncle 1 with
            | none => acc
            | some u => uncleChainGo f nodes u (acc ++ [hexEncode (nodes.get! u)])) from rfl]
        rw [get_uncle_none_of_lt 1 (by norm_num)]
        simp
  | 1, fuel, n, acc, h1, h2, hf => by
      have hf1 : ∃ f, fuel = f + 1 := ⟨fuel - 1, by omega⟩
      rcases hf1 with ⟨f, rfl⟩
      rw [show uncleChainGo (f + 1) nodes n acc =
        (match get_uncle n with
          | none => acc
          | some u => uncleChainGo f nodes u (acc ++ [hexEncode (nodes.get! u)])) from rfl]
      rw [get_uncle_none_of_lt n (by
        have : (2 : Nat) ^ (1 + 1) = 4 := by norm_num
        omega)]
      simp
  | e + 2, fuel, n, acc, h1, h2, hf => by
      have hppos : (0 : Nat) < 2 ^ e := Nat.pos_pow_of_pos _ (by norm_num)
      have hp1 : (2 : Nat) ^ (e + 1) = 2 * 2 ^ e := by rw [Nat.pow_succ]; ring
      have hp2 : (2 : Nat) ^ (e + 2) = 2 * 2 ^ (e + 1) := by rw [Nat.pow_succ]; ring
      have hp3 : (2 : Nat) ^ (e + 3) = 2 * 2 ^ (e + 2) := by rw [Nat.pow_succ]; ring
      have hn4 : 4 ≤ n := by
        have h4 : (4 : Nat) ≤ 2 ^ (e + 2) := by omega
        omega
      have hf1 : ∃ f, fuel = f + 1 := ⟨fuel - 1, by omega⟩
      rcases hf1 with ⟨f, rfl⟩
      rw [show uncleChainGo (f + 1) nodes n acc =
        (match get_uncle n with
          | none => acc
          | some u => uncleChainGo f nodes u (acc ++ [hexEncode (nodes.get! u)])) from rfl]
      rw [get_uncle_of_ge n hn4]
      show uncleChainGo f nodes (get_sibling (n / 2))
          (acc ++ [hexEncode (nodes.get! (get_sibling (n / 2)))]) =
        acc ++ (List.range' 1 (e + 2 - 1)).map
          (fun k => hexEncode (nodes.get! (get_sibling (n / 2 ^ k))))
      have hdiv : 2 ^ (e + 1) ≤ n / 2 ∧ n / 2 < 2 ^ (e + 2) := by
        rw [show e + 2 + 1 = e + 3 from rfl] at h2
        omega
      have hsib := sibling_range (e + 1) (n / 2) (by omega) hdiv.1 hdiv.2
      have hrec := uncleChainGo_spec nodes (e + 1) f (get_sibling (n / 2))
        (acc ++ [hexEncode (nodes.get! (get_sibling (n / 2)))]) hsib.1 hsib.2 (by omega)
      rw [show e + 1 - 1 = e from by omega] at hrec
      rw [hrec]
      have htail : (List.range' 1 e).map
          (fun k => hexEncode (nodes.get! (get_sibling (get_sibling (n / 2) / 2 ^ k)))) =
          (List.range' (1 + 1) e).map
            (fun k => hexEncode (nodes.get! (get_sibling (n / 2 ^ k)))) := by
        apply map_range'_shift_rel
        intro k hk
        rw [sib_div_pow n k hk]
      rw [htail, show e + 2 - 1 = e + 1 from by omega, List.range'_succ, List.map_cons,
        pow_one, List.append_assoc]
      rfl

/-! ### Hex round trip -/

theorem hexVal_hexChar : ∀ x, x < 16 → hexVal (hexChar x) = x := by decide

theorem hexDecode_hexEncode : ∀ (bs : List Nat), (∀ b ∈ bs, b < 256) →
    hexDecode (hexEncode bs) = bs
  | [], _ => rfl
  | b :: bs, h => by
      have hb : b < 256 := h b (by simp)
      have hstep : hexDecode (hexEncode (b :: bs)) =
          (hexVal (hexChar (b / 16)) * 16 + hexVal (hexChar (b % 16))) ::
            hexDecode (hexEncode bs) := rfl
      rw [hstep, hexVal_hexChar _ (by omega), hexVal_hexChar _ (by omega),
        hexDecode_hexEncode bs (fun x hx => h x (by simp [hx]))]
      congr 1
      omega

/-! ### The proof returned for a valid piece index -/

theorem proof_of_traversal_some (t : MerkleTree) (n : Nat)
    (hn : ¬ t.total_non_empty_pieces < n)
    (hb : get_sibling (t.nodes.length / 2 + n) < t.nodes.length) (us : List String)
    (hu : t.uncle_traversal n = some us) :
    t.proof n =
      some (some (hexEncode (t.nodes.get! (get_sibling (t.nodes.length / 2 + n))) :: us)) := by
  rw [proof_def, if_neg hn, if_pos hb, hu]

theorem size_pos_of_two_le (c : Nat) (hc : 2 ≤ c) : 1 ≤ Nat.size (c - 1) := by
  have := Nat.lt_size.mpr (show 2 ^ 0 ≤ c - 1 from by omega)
  omega

theorem uncle_traversal_chain (bytes : List Nat) (h1 : bytes ≠ []) (h2 : bytes.length ≤ 2 ^ 42)
    (i : Nat) (hi : i < (split_file_to_chunks bytes).length) :
    (MerkleTree.new bytes).uncle_traversal i = some
      ((List.range' 1 (Nat.size ((split_file_to_chunks bytes).length - 1) - 1)).map
        (fun k => hexEncode ((MerkleTree.new bytes).nodes.get!
          (get_sibling ((2 ^ Nat.size ((split_file_to_chunks bytes).length - 1) + i) / 2 ^ k))))) := by
  have hc := count_facts bytes h1 h2
  have hps := padded_spec (split_file_to_chunks bytes) hc.1 hc.2
  have hlen : (MerkleTree.new bytes).nodes.length =
      2 ^ (Nat.size ((split_file_to_chunks bytes).length - 1) + 1) := by
    rw [new_nodes_built]
    exact (built_spec _ _ hps.1).1
  have hppos : (0 : Nat) < 2 ^ Nat.size ((split_file_to_chunks bytes).length - 1) :=
    Nat.pos_pow_of_pos _ (by norm_num)
  have hp1 : (2 : Nat) ^ (Nat.size ((split_file_to_chunks bytes).length - 1) + 1) =
      2 * 2 ^ Nat.size ((split_file_to_chunks bytes).length - 1) := by
    rw [Nat.pow_succ]
    ring
  have hhalf : (MerkleTree.new bytes).nodes.length / 2 =
      2 ^ Nat.size ((split_file_to_chunks bytes).length - 1) := by
    rw [hlen, hp1]
    omega
  rw [uncle_traversal_def, new_total, if_neg (by omega), hhalf]
  congr 1
  have hfuel : Nat.size ((split_file_to_chunks bytes).length - 1) ≤
      (MerkleTree.new bytes).nodes.length := by
    rw [hlen]
    calc Nat.size ((split_file_to_chunks bytes).length - 1)
        ≤ 2 ^ Nat.size ((split_file_to_chunks bytes).length - 1) :=
          le_of_lt (Nat.lt_two_pow _)
      _ ≤ 2 ^ (Nat.size ((split_file_to_chunks bytes).length - 1) + 1) := by omega
  exact uncleChainGo_spec (MerkleTree.new bytes).nodes
    (Nat.size ((split_file_to_chunks bytes).length - 1))
    (MerkleTree.new bytes).nodes.length
    (2 ^ Nat.size ((split_file_to_chunks bytes).length - 1) + i) []
    (by omega) (by have := hps.2.1; omega) hfuel

theorem new_sibling_bound (bytes : List Nat) (h1 : bytes ≠ []) (h2 : bytes.length ≤ 2 ^ 42)
    (i : Nat) (hi : i < (split_file_to_chunks bytes).length) :
    get_sibling ((MerkleTree.new bytes).nodes.length / 2 + i) <
      (MerkleTree.new bytes).nodes.length := by
  have hc := count_facts bytes h1 h2
  have hps := padded_spec (split_file_to_chunks bytes) hc.1 hc.2
  have hlen : (MerkleTree.new bytes).nodes.length =
      2 ^ (Nat.size ((split_file_to_chunks bytes).length - 1) + 1) := by
    rw [new_nodes_built]
    exact (built_spec _ _ hps.1).1
  have hp1 : (2 : Nat) ^ (Nat.size ((split_file_to_chunks bytes).length - 1) + 1) =
      2 * 2 ^ Nat.size ((split_file_to_chunks bytes).length - 1) := by
    rw [Nat.pow_succ]
    ring
  have hppos : (0 : Nat) < 2 ^ Nat.size ((split_file_to_chunks bytes).length - 1) :=
    Nat.pos_pow_of_pos _ (by norm_num)
  have hhalf : (MerkleTree.new bytes).nodes.length / 2 =
      2 ^ Nat.size ((split_file_to_chunks bytes).length - 1) := by
    rw [hlen, hp1]
    omega
  have hile : i < 2 ^ Nat.size ((split_file_to_chunks bytes).length - 1) := by
    have := hps.2.1
    omega
  rw [hhalf, hlen, get_sibling_eq]
  by_cases hpar : (2 ^ Nat.size ((split_file_to_chunks bytes).length - 1) + i) % 2 = 0
  · rw [if_pos hpar]
    omega
  · rw [if_neg hpar]
    omega

theorem proof_chain (bytes : List Nat) (h1 : bytes ≠ []) (h2 : bytes.length ≤ 2 ^ 42)
    (hc2 : 2 ≤ (split_file_to_chunks bytes).length)
    (i : Nat) (hi : i < (split_file_to_chunks bytes).length) :
    (MerkleTree.new bytes).proof i = some (some
      ((List.range (Nat.size ((split_file_to_chunks bytes).length - 1))).map
        (fun k => hexEncode ((MerkleTree.new bytes).nodes.get!
          (get_sibling ((2 ^ Nat.size ((split_file_to_chunks bytes).length - 1) + i) / 2 ^ k)))))) := by
  have hc := count_facts bytes h1 h2
  have hps := padded_spec (split_file_to_chunks bytes) hc.1 hc.2
  have hdpos := size_pos_of_two_le _ hc2
  have hlen : (MerkleTree.new bytes).nodes.length =
      2 ^ (Nat.size ((split_file_to_chunks bytes).length - 1) + 1) := by
    rw [new_nodes_built]
    exact (built_spec _ _ hps.1).1
  have hp1 : (2 : Nat) ^ (Nat.size ((split_file_to_chunks bytes).length - 1) + 1) =
      2 * 2 ^ Nat.size ((split_file_to_chunks bytes).length - 1) := by
    rw [Nat.pow_succ]
    ring
  have hppos : (0 : Nat) < 2 ^ Nat.size ((split_file_to_chunks bytes).length - 1) :=
    Nat.pos_pow_of_pos _ (by norm_num)
  have hhalf : (MerkleTree.new bytes).nodes.length / 2 =
      2 ^ Nat.size ((split_file_to_chunks bytes).length - 1) := by
    rw [hlen, hp1]
    omega
  rw [proof_of_traversal_some (MerkleTree.new bytes) i
    (by rw [new_total]; omega) (new_sibling_bound bytes h1 h2 i hi)
    _ (uncle_traversal_chain bytes h1 h2 i hi), hhalf]
  congr 2
  rw [show List.range (Nat.size ((split_file_to_chunks bytes).length - 1)) =
    List.range' 0 (Nat.size ((split_file_to_chunks bytes).length - 1)) from
      List.range_eq_range' _]
  rw [show Nat.size ((split_file_to_chunks bytes).length - 1) =
    (Nat.size ((split_file_to_chunks bytes).length - 1) - 1) + 1 from by omega, List.range'_succ,
    List.map_cons]
  rw [show (0 : Nat) + 1 = 1 from rfl, pow_zero, Nat.div_one]
  simp only [Nat.add_sub_cancel]

/-! ### Replaying a proof -/

theorem sibling_sibling (x : Nat) : get_sibling (get_sibling x) = x := by
  rw [get_sibling_eq, get_sibling_eq]
  by_cases h : x % 2 = 0
  · rw [if_pos h, if_neg (by omega)]
    omega
  · rw [if_neg h, if_pos (by omega)]
    omega

theorem foldProof_spec (nodes : List (List Nat)) (D : Nat)
    (hinv : ∀ j, 1 ≤ j → j < 2 ^ D →
      nodes.get! j = sha256 (nodes.get! (2 * j) ++ nodes.get! (2 * j + 1)))
    (hbytes : ∀ j, ∀ b ∈ nodes.get! j, b < 256) :
    ∀ (e : Nat), e ≤ D → ∀ n, 2 ^ e ≤ n → n < 2 ^ (e + 1) →
      foldProof ((List.range e).map (fun k => hexEncode (nodes.get! (get_sibling (n / 2 ^ k)))))
        n (nodes.get! n) = nodes.get! 1
  | 0, hD, n, h1, h2 => by
      have hn : n = 1 := by
        have ha : (2 : Nat) ^ 0 = 1 := by norm_num
        have hb : (2 : Nat) ^ (0 + 1) = 2 := by norm_num
        omega
      subst hn
      rfl
  | e + 1, hD, n, h1, h2 => by
      have hppos : (0 : Nat) < 2 ^ e := Nat.pos_pow_of_pos _ (by norm_num)
      have hp1 : (2 : Nat) ^ (e + 1) = 2 * 2 ^ e := by rw [Nat.pow_succ]; ring
      have hp2 : (2 : Nat) ^ (e + 2) = 2 * 2 ^ (e + 1) := by rw [Nat.pow_succ]; ring
      have hpD : (2 : Nat) ^ (e + 1) ≤ 2 ^ D := Nat.pow_le_pow_right (by norm_num) hD
      rw [List.range_succ_eq_map, List.map_cons, pow_zero, Nat.div_one]
      have hstep : foldProof (hexEncode (nodes.get! (get_sibling n)) ::
          (List.map Nat.succ (List.range e)).map
            (fun k => hexEncode (nodes.get! (get_sibling (n / 2 ^ k)))))
          n (nodes.get! n) =
          foldProof ((List.map Nat.succ (List.range e)).map
            (fun k => hexEncode (nodes.get! (get_sibling (n / 2 ^ k)))))
            (n / 2)
            (if n % 2 = 0 then sha256 (nodes.get! n ++ hexDecode (hexEncode (nodes.get! (get_sibling n))))
              else sha256 (hexDecode (hexEncode (nodes.get! (get_sibling n))) ++ nodes.get! n)) := rfl
      rw [hstep, hexDecode_hexEncode _ (hbytes _)]
      have hcur : (if n % 2 = 0 then sha256 (nodes.get! n ++ nodes.get! (get_sibling n))
          else sha256 (nodes.get! (get_sibling n) ++ nodes.get! n)) = nodes.get! (n / 2) := by
        have hn2 : 1 ≤ n / 2 ∧ n / 2 < 2 ^ D := by
          constructor
          · omega
          · have : n / 2 < 2 ^ (e + 1) := by omega
            omega
        rw [hinv (n / 2) hn2.1 hn2.2]
        by_cases hpar : n % 2 = 0
        · rw [if_pos hpar, get_sibling_eq, if_pos hpar,
            show 2 * (n / 2) = n from by omega]
        · rw [if_neg hpar, get_sibling_eq, if_neg hpar,
            show 2 * (n / 2) = n - 1 from by omega, show n - 1 + 1 = n from by omega]
      rw [hcur]
      have hmap : (List.map Nat.succ (List.range e)).map
          (fun k => hexEncode (nodes.get! (get_sibling (n / 2 ^ k)))) =
          (List.range e).map
            (fun k => hexEncode (nodes.get! (get_sibling ((n / 2) / 2 ^ k)))) := by
        rw [List.map_map]
        apply List.map_congr_left
        intro k _
        have : n / 2 ^ (Nat.succ k) = n / 2 / 2 ^ k := by
          rw [Nat.div_div_eq_div_mul]
          congr 1
          rw [Nat.pow_succ]
          ring
        simp only [Function.comp]
        rw [show (Nat.succ k) = k + 1 from rfl] at this ⊢
        rw [this]
      rw [hmap]
      exact foldProof_spec nodes D hinv hbytes e (by omega) (n / 2) (by omega) (by omega)

/-! ### Facts about the freshly built tree needed for replay -/

theorem new_leaf_eq (bytes : List Nat) (h1 : bytes ≠ []) (h2 : bytes.length ≤ 2 ^ 42)
    (i : Nat) (hi : i < (split_file_to_chunks bytes).length) :
    (MerkleTree.new bytes).nodes.get!
      (2 ^ Nat.size ((split_file_to_chunks bytes).length - 1) + i) =
      hash_leaf ((split_file_to_chunks bytes).get! i) := by
  have hc := count_facts bytes h1 h2
  have hps := padded_spec (split_file_to_chunks bytes) hc.1 hc.2
  rw [new_nodes_built]
  have hb := (built_spec (pad_leaf_layer (split_file_to_chunks bytes))
    (Nat.size ((split_file_to_chunks bytes).length - 1)) hps.1).2.1
  rw [hb i (by have := hps.2.1; omega), hps.2.2.1 i hi]

theorem new_internal_hash (bytes : List Nat) (h1 : bytes ≠ []) (h2 : bytes.length ≤ 2 ^ 42) :
    ∀ j, 1 ≤ j → j < 2 ^ Nat.size ((split_file_to_chunks bytes).length - 1) →
      (MerkleTree.new bytes).nodes.get! j =
        sha256 ((MerkleTree.new bytes).nodes.get! (2 * j) ++
          (MerkleTree.new bytes).nodes.get! (2 * j + 1)) := by
  have hc := count_facts bytes h1 h2
  have hps := padded_spec (split_file_to_chunks bytes) hc.1 hc.2
  intro j hj1 hj2
  rw [new_nodes_built]
  exact (built_spec (pad_leaf_layer (split_file_to_chunks bytes))
    (Nat.size ((split_file_to_chunks bytes).length - 1)) hps.1).2.2.1 j hj1 hj2

theorem new_nodes_bytes_lt (bytes : List Nat) (h1 : bytes ≠ []) (h2 : bytes.length ≤ 2 ^ 42) :
    ∀ j, ∀ b ∈ (MerkleTree.new bytes).nodes.get! j, b < 256 := by
  have hc := count_facts bytes h1 h2
  have hps := padded_spec (split_file_to_chunks bytes) hc.1 hc.2
  have hb := built_spec (pad_leaf_layer (split_file_to_chunks bytes))
    (Nat.size ((split_file_to_chunks bytes).length - 1)) hps.1
  have hp1 : (2 : Nat) ^ (Nat.size ((split_file_to_chunks bytes).length - 1) + 1) =
      2 * 2 ^ Nat.size ((split_file_to_chunks bytes).length - 1) := by
    rw [Nat.pow_succ]
    ring
  intro j b hbj
  rw [new_nodes_built] at hbj
  by_cases hj0 : j = 0
  · rw [hj0, hb.2.2.2] at hbj
    simp at hbj
  by_cases hjI : j < 2 ^ Nat.size ((split_file_to_chunks bytes).length - 1)
  · rw [hb.2.2.1 j (by omega) hjI] at hbj
    exact sha256_bytes_lt _ b hbj
  by_cases hjL : j < 2 ^ (Nat.size ((split_file_to_chunks bytes).length - 1) + 1)
  · have hd : j = 2 ^ Nat.size ((split_file_to_chunks bytes).length - 1) +
        (j - 2 ^ Nat.size ((split_file_to_chunks bytes).length - 1)) := by omega
    rw [hd, hb.2.1 _ (by omega)] at hbj
    by_cases hreal : j - 2 ^ Nat.size ((split_file_to_chunks bytes).length - 1) <
        (split_file_to_chunks bytes).length
    · rw [hps.2.2.1 _ hreal] at hbj
      have hlen := split_get_len bytes _ hreal
      rw [hash_leaf_of_ne _ (fun hcon => by
        rw [hcon, List.length_replicate] at hlen
        omega)] at hbj
      exact sha256_bytes_lt _ b hbj
    · rw [hps.2.2.2 _ (by omega) (by omega), hash_leaf_zero] at hbj
      have := List.eq_of_mem_replicate hbj
      omega
  · rw [get_bang_of_length_le _ j (by rw [hb.1]; omega)] at hbj
    exact absurd hbj (List.not_mem_nil b)

/-- C1 (amended): for a tree built from a non-empty file of at least two
pieces and at most `2^42` bytes (within which the source's five-shift
or-cascade pads the leaf layer to a true power of two), replaying the proof
returned for any valid index `i` — folding each chain element onto the
current digest, hashing current-then-sibling when the climbing node index is
even and sibling-then-current when odd — starting from the leaf digest of
piece `i` at node `L + i`, reproduces the root digest stored at node
index 1. -/
theorem proof_replay (bytes : List Nat) (h1 : bytes ≠ []) (h2 : bytes.length ≤ 2 ^ 42)
    (hc2 : 2 ≤ (split_file_to_chunks bytes).length)
    (i : Nat) (hi : i < (split_file_to_chunks bytes).length)
    (ps : List String) (hp : (MerkleTree.new bytes).proof i = some (some ps)) :
    foldProof ps ((MerkleTree.new bytes).nodes.length / 2 + i)
      (hash_leaf ((split_file_to_chunks bytes).get! i)) =
      (MerkleTree.new bytes).nodes.get! 1 := by
  have hc := count_facts bytes h1 h2
  have hps := padded_spec (split_file_to_chunks bytes) hc.1 hc.2
  have hchain := proof_chain bytes h1 h2 hc2 i hi
  rw [hp] at hchain
  have hps_eq := Option.some.inj (Option.some.inj hchain)
  have hp1 : (2 : Nat) ^ (Nat.size ((split_file_to_chunks bytes).length - 1) + 1) =
      2 * 2 ^ Nat.size ((split_file_to_chunks bytes).length - 1) := by
    rw [Nat.pow_succ]
    ring
  have hlen : (MerkleTree.new bytes).nodes.length =
      2 ^ (Nat.size ((split_file_to_chunks bytes).length - 1) + 1) := by
    rw [new_nodes_built]
    exact (built_spec _ _ hps.1).1
  have hhalf : (MerkleTree.new bytes).nodes.length / 2 =
      2 ^ Nat.size ((split_file_to_chunks bytes).length - 1) := by
    have hppos : (0 : Nat) < 2 ^ Nat.size ((split_file_to_chunks bytes).length - 1) :=
      Nat.pos_pow_of_pos _ (by norm_num)
    rw [hlen, hp1]
    omega
  have hfold := foldProof_spec (MerkleTree.new bytes).nodes
    (Nat.size ((split_file_to_chunks bytes).length - 1))
    (new_internal_hash bytes h1 h2) (new_nodes_bytes_lt bytes h1 h2)
    (Nat.size ((split_file_to_chunks bytes).length - 1)) le_rfl
    (2 ^ Nat.size ((split_file_to_chunks bytes).length - 1) + i)
    (by omega) (by have := hps.2.1; omega)
  rw [hps_eq, hhalf, ← new_leaf_eq bytes h1 h2 i hi]
  exact hfold

theorem proof_replay_witness :
    (List.replicate 1025 0 ≠ ([] : List Nat) ∧
      (List.replicate 1025 (0 : Nat)).length ≤ 2 ^ 42 ∧
      2 ≤ (split_file_to_chunks (List.replicate 1025 0)).length ∧
      0 < (split_file_to_chunks (List.replicate 1025 0)).length ∧
      (MerkleTree.new (List.replicate 1025 0)).proof 0 = some (some
        ((List.range (Nat.size ((split_file_to_chunks (List.replicate 1025 0)).length - 1))).map
          (fun k => hexEncode ((MerkleTree.new (List.replicate 1025 0)).nodes.get!
            (get_sibling ((2 ^ Nat.size ((split_file_to_chunks (List.replicate 1025 0)).length - 1)
              + 0) / 2 ^ k))))))) ∧
    foldProof
      ((List.range (Nat.size ((split_file_to_chunks (List.replicate 1025 0)).length - 1))).map
        (fun k => hexEncode ((MerkleTree.new (List.replicate 1025 0)).nodes.get!
          (get_sibling ((2 ^ Nat.size ((split_file_to_chunks (List.replicate 1025 0)).length - 1)
            + 0) / 2 ^ k)))))
      ((MerkleTree.new (List.replicate 1025 0)).nodes.length / 2 + 0)
      (hash_leaf ((split_file_to_chunks (List.replicate 1025 0)).get! 0)) =
      (MerkleTree.new (List.replicate 1025 0)).nodes.get! 1 := by
  have hc2 : 2 ≤ (split_file_to_chunks (List.replicate 1025 0)).length := by
    rw [count_1025]
  have hi : 0 < (split_file_to_chunks (List.replicate 1025 0)).length := by
    rw [count_1025]
    norm_num
  have hp := proof_chain (List.replicate 1025 0) replicate_1025_ne_nil
    replicate_1025_len_le hc2 0 hi
  exact ⟨⟨replicate_1025_ne_nil, replicate_1025_len_le, hc2, hi, hp⟩,
    proof_replay (List.replicate 1025 0) replicate_1025_ne_nil
      replicate_1025_len_le hc2 0 hi _ hp⟩

/-- C10 (counterexample): for a file of `2^42 + 1` bytes the piece count is
`2^32 + 1` and the or-cascade of `get_next_power_of_two` — whose last shift
is 16 — overflows: the leaf layer is padded to `2^33 - 1` slots, not a power
of two, and the proof returned for the valid piece index 1 has 33 elements
while `log2` of the actual padded leaf count is 32, refuting the claimed
length `log2 L`. -/
theorem proof_length_overflow :
    1 < (split_file_to_chunks (List.replicate (2 ^ 42 + 1) 0)).length ∧
    (pad_leaf_layer (split_file_to_chunks (List.replicate (2 ^ 42 + 1) 0))).length =
      2 ^ 33 - 1 ∧
    (∃ ps, (MerkleTree.new (List.replicate (2 ^ 42 + 1) 0)).proof 1 = some (some ps) ∧
      ps.length = 33 ∧
      ps.length ≠ Nat.log2
        (pad_leaf_layer (split_file_to_chunks (List.replicate (2 ^ 42 + 1) 0))).length) := by
  have p32 : (2 : Nat) ^ 32 = 4294967296 := by norm_num
  have p33 : (2 : Nat) ^ 33 = 8589934592 := by norm_num
  have p34 : (2 : Nat) ^ 34 = 17179869184 := by norm_num
  have hcount : (split_file_to_chunks (List.replicate (2 ^ 42 + 1) 0)).length = 2 ^ 32 + 1 := by
    rw [split_length, List.length_replicate]
    norm_num
  have hgnpt : get_next_power_of_two (2 ^ 32 + 1) = 2 ^ 33 - 1 := by decide
  have hpadlen : (pad_leaf_layer (split_file_to_chunks (List.replicate (2 ^ 42 + 1) 0))).length =
      2 ^ 33 - 1 := by
    unfold pad_leaf_layer
    rw [List.length_append, List.length_replicate, hcount, hgnpt]
    omega
  have hnl : (MerkleTree.new (List.replicate (2 ^ 42 + 1) 0)).nodes.length = 2 ^ 34 - 2 := by
    rw [new_nodes_length _ (by rw [hcount]; omega), hpadlen]
    omega
  have hnode : (MerkleTree.new (List.replicate (2 ^ 42 + 1) 0)).nodes.length / 2 + 1 =
      2 ^ 33 := by
    rw [hnl]
    omega
  have hut : (MerkleTree.new (List.replicate (2 ^ 42 + 1) 0)).uncle_traversal 1 =
      some ((List.range' 1 32).map (fun k =>
        hexEncode ((MerkleTree.new (List.replicate (2 ^ 42 + 1) 0)).nodes.get!
          (get_sibling (2 ^ 33 / 2 ^ k))))) := by
    rw [uncle_traversal_def, new_total, if_neg (by rw [hcount]; omega), hnode]
    have hspec := uncleChainGo_spec (MerkleTree.new (List.replicate (2 ^ 42 + 1) 0)).nodes 33
      (MerkleTree.new (List.replicate (2 ^ 42 + 1) 0)).nodes.length (2 ^ 33) []
      (le_refl _) (by norm_num) (by rw [hnl]; norm_num)
    rw [hspec, List.nil_append]
  have hbnd : get_sibling ((MerkleTree.new (List.replicate (2 ^ 42 + 1) 0)).nodes.length / 2 + 1)
      < (MerkleTree.new (List.replicate (2 ^ 42 + 1) 0)).nodes.length := by
    rw [hnode, hnl, get_sibling_eq, if_pos (by omega)]
    omega
  have hproof : (MerkleTree.new (List.replicate (2 ^ 42 + 1) 0)).proof 1 = some (some
      (hexEncode ((MerkleTree.new (List.replicate (2 ^ 42 + 1) 0)).nodes.get!
        (get_sibling ((MerkleTree.new (List.replicate (2 ^ 42 + 1) 0)).nodes.length / 2 + 1))) ::
      (List.range' 1 32).map (fun k =>
        hexEncode ((MerkleTree.new (List.replicate (2 ^ 42 + 1) 0)).nodes.get!
          (get_sibling (2 ^ 33 / 2 ^ k)))))) := by
    rw [proof_def, new_total, if_neg (by rw [hcount]; omega), if_pos hbnd, hut]
  refine ⟨by rw [hcount]; omega, hpadlen, _, hproof, ?_, ?_⟩
  · rw [List.length_cons, List.length_map, List.length_range']
  · rw [List.length_cons, List.length_map, List.length_range', hpadlen]
    have hlog : Nat.log2 (2 ^ 33 - 1) = 32 := by
      rw [Nat.log2_eq_log_two]
      refine Nat.log_eq_of_pow_le_of_lt_pow ?_ ?_ <;> norm_num
    rw [hlog]
    norm_num

/-- C10 (amended): for a tree built from a file of at least two pieces and
at most `2^42` bytes (within which the source's five-shift or-cascade pads
the leaf layer to a true power of two), the proof returned for any valid
piece index `i` is exactly `log2 L` hashes long (`L` the padded leaf
count): the sibling of the leaf node followed by the `log2 L - 1` uncles
produced by the traversal. -/
theorem proof_length (bytes : List Nat) (h1 : bytes ≠ []) (h2 : bytes.length ≤ 2 ^ 42)
    (hc2 : 2 ≤ (split_file_to_chunks bytes).length)
    (i : Nat) (hi : i < (split_file_to_chunks bytes).length)
    (ps : List String) (hp : (MerkleTree.new bytes).proof i = some (some ps)) :
    ps.length = Nat.log2 (get_next_power_of_two (split_file_to_chunks bytes).length) ∧
    ps = hexEncode ((MerkleTree.new bytes).nodes.get!
      (get_sibling ((MerkleTree.new bytes).nodes.length / 2 + i))) :: ps.tail ∧
    (MerkleTree.new bytes).uncle_traversal i = some ps.tail ∧
    ps.tail.length =
      Nat.log2 (get_next_power_of_two (split_file_to_chunks bytes).length) - 1 := by
  have hc := count_facts bytes h1 h2
  have hdpos := size_pos_of_two_le _ hc2
  have hut := uncle_traversal_chain bytes h1 h2 i hi
  have hsome := proof_of_traversal_some (MerkleTree.new bytes) i
    (by rw [new_total]; omega) (new_sibling_bound bytes h1 h2 i hi) _ hut
  rw [hp] at hsome
  have hps_eq := Option.some.inj (Option.some.inj hsome)
  have hlog : Nat.log2 (get_next_power_of_two (split_file_to_chunks bytes).length) =
      Nat.size ((split_file_to_chunks bytes).length - 1) := by
    rw [get_next_power_of_two_eq _ hc.1 hc.2, Nat.log2_eq_log_two, Nat.log_pow (by norm_num)]
  have htail : ps.tail =
      (List.range' 1 (Nat.size ((split_file_to_chunks bytes).length - 1) - 1)).map
        (fun k => hexEncode ((MerkleTree.new bytes).nodes.get!
          (get_sibling ((2 ^ Nat.size ((split_file_to_chunks bytes).length - 1) + i) / 2 ^ k)))) := by
    rw [hps_eq]
    rfl
  refine ⟨?_, ?_, ?_, ?_⟩
  · rw [hps_eq, hlog, List.length_cons, List.length_map, List.length_range']
    omega
  · rw [htail]
    exact hps_eq
  · rw [htail]
    exact hut
  · rw [htail, hlog, List.length_map, List.length_range']

theorem proof_length_witness :
    (List.replicate 1025 0 ≠ ([] : List Nat) ∧
      (List.replicate 1025 (0 : Nat)).length ≤ 2 ^ 42 ∧
      2 ≤ (split_file_to_chunks (List.replicate 1025 0)).length ∧
      0 < (split_file_to_chunks (List.replicate 1025 0)).length ∧
      (MerkleTree.new (List.replicate 1025 0)).proof 0 = some (some
        ((List.range (Nat.size ((split_file_to_chunks (List.replicate 1025 0)).length - 1))).map
          (fun k => hexEncode ((MerkleTree.new (List.replicate 1025 0)).nodes.get!
            (get_sibling ((2 ^ Nat.size ((split_file_to_chunks (List.replicate 1025 0)).length - 1)
              + 0) / 2 ^ k))))))) ∧
    ((List.range (Nat.size ((split_file_to_chunks (List.replicate 1025 0)).length - 1))).map
      (fun k => hexEncode ((MerkleTree.new (List.replicate 1025 0)).nodes.get!
        (get_sibling ((2 ^ Nat.size ((split_file_to_chunks (List.replicate 1025 0)).length - 1)
          + 0) / 2 ^ k))))).length =
      Nat.log2 (get_next_power_of_two (split_file_to_chunks (List.replicate 1025 0)).length) := by
  have hc2 : 2 ≤ (split_file_to_chunks (List.replicate 1025 0)).length := by
    rw [count_1025]
  have hi : 0 < (split_file_to_chunks (List.replicate 1025 0)).length := by
    rw [count_1025]
    norm_num
  have hp := proof_chain (List.replicate 1025 0) replicate_1025_ne_nil
    replicate_1025_len_le hc2 0 hi
  exact ⟨⟨replicate_1025_ne_nil, replicate_1025_len_le, hc2, hi, hp⟩,
    (proof_length (List.replicate 1025 0) replicate_1025_ne_nil
      replicate_1025_len_le hc2 0 hi _ hp).1⟩

end Merkle
